import Mathlib

/-!
# Video highlight pipeline: segment planner and extraction orchestrator

A shallow embedding of `Processor.run` (processor.go) together with the
collaborators it calls (`GetVideoDuration`, `RunFFmpegExtract`,
`ConcatSegments` of ffmpeg.go and the `Emit*` sinks of app.go).

Modelling conventions.

* Go `float64` values are modelled by exact rationals: every arithmetic
  operation of the source is the corresponding exact operation on `ℚ`.
  Rounding, infinities and NaN are outside the model.
* Go `int` is the 64-bit two's-complement integer: a value is an `Int` in
  `[-2^63, 2^63)` and every `int` addition or subtraction of the planner
  (`SegmentMin+SegmentMax`, `SegmentMax-SegmentMin`, `CountMax-CountMin+1`,
  `Intn(..)+CountMin`) wraps modulo `2^64` (`wrap64`).
* The random generator `r` is a pair of outcome streams, one read by `Intn`
  and one read by `Float64`; theorems quantify over all streams whose
  `Float64` outcomes lie in `[0, 1)`.
* The outside world (ffprobe, ffmpeg, the clock, the path library) enters as
  explicit oracles, and the concurrent part of `run` is a labelled transition
  system whose labels are the scheduler's choices.
-/

namespace VideoCut

/-! ## Data model (processor.go 13-24, ffmpeg.go 15-20) -/

/-- The `Config` struct of processor.go. -/
structure Config where
  Files : List String
  CountMin : Int
  CountMax : Int
  SegmentMin : Int
  SegmentMax : Int
  StartOffsetMin : Int
  RandomTime : Bool
  ShuffleSegments : Bool
  GPU : Bool
  OutputPath : String

/-- The `SegmentRequest` struct of ffmpeg.go. -/
structure SegmentRequest where
  SrcPath : String
  Start : ℚ
  Duration : ℚ
  OutPath : String
  deriving DecidableEq

/-- The anonymous struct `{start, dur}` collected in `chosen`. -/
structure Chosen where
  start : ℚ
  dur : ℚ
  deriving DecidableEq

/-- What the run makes observable: the three reporting sinks of app.go and the
calls to the collaborators. -/
inductive Event where
  | log (msg : String)
  | progress (pct : Int)
  | finished (success : Bool) (message : String)
  | submit (idx : Nat) (req : SegmentRequest)
  | extract (idx : Nat) (req : SegmentRequest) (gpu : Bool)
  | concat (paths : List String) (outPath : String) (gpu : Bool)
  | remove (path : String)
  deriving DecidableEq

/-! ## The random generator -/

/-- State of `r`: the outcomes still to come and how many were consumed. -/
structure Rng where
  ints : Nat → Nat
  floats : Nat → ℚ
  ipos : Nat
  fpos : Nat

/-- The draw `r.Intn(k)`: panics when `k ≤ 0`, otherwise a value in `[0, k)`. -/
def Rng.Intn (r : Rng) (k : Int) : Except String (Int × Rng) :=
  if k ≤ 0 then .error "invalid argument to Intn"
  else .ok (((r.ints r.ipos % k.toNat : Nat) : Int), { r with ipos := r.ipos + 1 })

/-- The draw `r.Float64()`. -/
def Rng.Float64 (r : Rng) : ℚ × Rng :=
  (r.floats r.fpos, { r with fpos := r.fpos + 1 })

/-- Every `Float64` outcome lies in `[0, 1)`. -/
def Rng.Uniform (r : Rng) : Prop := ∀ i, 0 ≤ r.floats i ∧ r.floats i < 1

/-- Exchange of the elements at positions `i` and `j`, the `swap` closure
handed to `r.Shuffle`. -/
def swapAt (l : List SegmentRequest) (i j : Nat) : List SegmentRequest :=
  match l[i]?, l[j]? with
  | some a, some b => (l.set i b).set j a
  | _, _ => l

/-- The loop of `r.Shuffle`: for `i` from `n-1` down to `1`, swap `i` with
`Intn(i+1)`. -/
def shuffleLoop : Nat → Rng → List SegmentRequest → List SegmentRequest × Rng
  | 0, r, l => (l, r)
  | i + 1, r, l =>
    match r.Intn ((i : Int) + 2) with
    | .ok (j, r1) => shuffleLoop i r1 (swapAt l (i + 1) j.toNat)
    | .error _ => (l, r)

/-- The call `r.Shuffle(len(segRequests), ...)`. -/
def Rng.Shuffle (r : Rng) (l : List SegmentRequest) : List SegmentRequest × Rng :=
  shuffleLoop (l.length - 1) r l

/-! ## Oracles for the outside world -/

/-- The collaborators the planner reads. -/
structure Env where
  GetVideoDuration : String → Except String ℚ
  Base : String → String
  Join : String → String → String → String
  TempDir : String
  UnixNano : Nat → Int

/-! ## Machine integers -/

/-- The result of a Go `int` operation whose exact value is `x`: the
representative of `x` modulo `2^64` in `[-2^63, 2^63)`. -/
def wrap64 (x : Int) : Int :=
  (x + 9223372036854775808) % 18446744073709551616 - 9223372036854775808

/-- The value fits a Go `int`. -/
def IsInt64 (x : Int) : Prop := -9223372036854775808 ≤ x ∧ x < 9223372036854775808

/-- The five `int` fields of the configuration hold Go `int` values. -/
def Config.InRange (cfg : Config) : Prop :=
  IsInt64 cfg.CountMin ∧ IsInt64 cfg.CountMax ∧ IsInt64 cfg.SegmentMin ∧
    IsInt64 cfg.SegmentMax ∧ IsInt64 cfg.StartOffsetMin

/-! ## The planner (processor.go 73-137) -/

/-- Line 73: `minStartOffset := float64(config.StartOffsetMin) * 60.0`. -/
def minStartOffset (cfg : Config) : ℚ := (cfg.StartOffsetMin : ℚ) * 60

/-- Line 96: `segLen := float64(config.SegmentMin+config.SegmentMax) / 2.0`. -/
def seqSegLen (cfg : Config) : ℚ := ((wrap64 (cfg.SegmentMin + cfg.SegmentMax) : Int) : ℚ) / 2

/-- Line 87, the argument of `Intn`: `config.CountMax-config.CountMin+1`. -/
def countArg (cfg : Config) : Int := wrap64 (wrap64 (cfg.CountMax - cfg.CountMin) + 1)

/-- Line 87, the drawn count: `n := r.Intn(..) + config.CountMin` for the outcome `d`
of `Intn`. -/
def drawnCount (cfg : Config) (d : Int) : Int := wrap64 (d + cfg.CountMin)

/-- Lines 95-105, the sequential loop; the first argument counts the
iterations still allowed by `i < n`. -/
def seqLoop (cfg : Config) (duration : ℚ) : Nat → ℚ → List Chosen → List Chosen
  | 0, _, chosen => chosen
  | k + 1, currentStart, chosen =>
    let segLen := seqSegLen cfg
    if currentStart + segLen > duration then chosen
    else seqLoop cfg duration k (currentStart + segLen) (chosen ++ [⟨currentStart, segLen⟩])

/-- Line 114: `r.Float64()*float64(SegmentMax-SegmentMin) + float64(SegmentMin)`. -/
def randSegLen (cfg : Config) (u : ℚ) : ℚ :=
  u * ((wrap64 (cfg.SegmentMax - cfg.SegmentMin) : Int) : ℚ) + (cfg.SegmentMin : ℚ)

/-- Line 118: `r.Float64()*(duration-minStartOffset-segLen) + minStartOffset`. -/
def randStart (cfg : Config) (duration segLen u : ℚ) : ℚ :=
  u * (duration - minStartOffset cfg - segLen) + minStartOffset cfg

/-- Lines 113-123, the randomized loop; the first argument counts the
iterations still allowed by `i < n`. -/
def randLoop (cfg : Config) (duration : ℚ) : Nat → Rng → List Chosen → List Chosen × Rng
  | 0, r, chosen => (chosen, r)
  | k + 1, r, chosen =>
    let segLen := randSegLen cfg r.Float64.1
    let r1 := r.Float64.2
    if duration - minStartOffset cfg < segLen then (chosen, r1)
    else
      let start := randStart cfg duration segLen r1.Float64.1
      randLoop cfg duration k r1.Float64.2 (chosen ++ [⟨start, segLen⟩])

/-- State threaded through the loop over `config.Files`. -/
structure PlanState where
  rng : Rng
  clock : Nat
  events : List Event
  segRequests : List SegmentRequest

/-- Lines 127-136: one `SegmentRequest` per chosen interval, named after the
source stem, the index and the clock. -/
def appendRequests (env : Env) (file : String) :
    List Chosen → Nat → Nat → List SegmentRequest → List SegmentRequest × Nat
  | [], _, clock, reqs => (reqs, clock)
  | c :: rest, i, clock, reqs =>
    let outName := env.Base file ++ "_seg_" ++ toString i ++ "_" ++
      toString (env.UnixNano clock) ++ ".mp4"
    let outPath := env.Join env.TempDir "video_processor_segments" outName
    appendRequests env file rest (i + 1) (clock + 1)
      (reqs ++ [⟨file, c.start, c.dur, outPath⟩])

/-- Lines 93-124: the intervals chosen for one file that passed the two
skip tests, or `none` when the randomized branch skips it at line 110. -/
def chooseSegments (cfg : Config) (duration : ℚ) (n : Int) (r : Rng) :
    Option (List Chosen × Rng) :=
  if !cfg.RandomTime then
    some (seqLoop cfg duration n.toNat (minStartOffset cfg) [], r)
  else
    let available := duration - minStartOffset cfg
    if available < (cfg.SegmentMax : ℚ) then none
    else some (randLoop cfg duration n.toNat r [])

/-- Lines 76-136, the body of the loop over `config.Files`; an error is the
panic of `Intn`, returned with the events emitted before it. -/
def planFile (cfg : Config) (env : Env) (st : PlanState) (file : String) :
    Except (List Event × String) PlanState :=
  match env.GetVideoDuration file with
  | .error err =>
    .ok { st with events := st.events ++ [.log ("Skipping " ++ file ++ ": " ++ err)] }
  | .ok duration =>
    if duration ≤ minStartOffset cfg + 1 then
      .ok { st with events := st.events ++ [.log ("Skipping " ++ file ++ ": too short")] }
    else
      match st.rng.Intn (countArg cfg) with
      | .error e => .error (st.events, e)
      | .ok (d, r1) =>
        let n := drawnCount cfg d
        match chooseSegments cfg duration n r1 with
        | none => .ok { st with rng := r1 }
        | some (chosen, r2) =>
          let out := appendRequests env file chosen 0 st.clock st.segRequests
          .ok { st with rng := r2, clock := out.2, segRequests := out.1 }

/-- Lines 75-137, the loop over `config.Files`. -/
def planLoop (cfg : Config) (env : Env) :
    List String → PlanState → Except (List Event × String) PlanState
  | [], st => .ok st
  | file :: rest, st =>
    match planFile cfg env st file with
    | .error e => .error e
    | .ok st1 => planLoop cfg env rest st1

/-- Lines 69-137: the opening log line and the planning loop. -/
def plan (cfg : Config) (env : Env) (r : Rng) : Except (List Event × String) PlanState :=
  planLoop cfg env cfg.Files
    ⟨r, 0, [.log ("Starting processing " ++ toString cfg.Files.length ++ " files...")], []⟩

/-! ## The orchestrator (processor.go 139-211)

The main routine and the extraction goroutines are the threads of a labelled
transition system; a label is the scheduler's choice of who moves next,
together with what the outside world answers. -/

/-- Go's conversion `int(x)` of a float: truncation toward zero. -/
def truncToInt (q : ℚ) : Int := if 0 ≤ q then ⌊q⌋ else ⌈q⌉

/-- Line 173: `int(float64(doneCount) / float64(len(segRequests)) * 80)`. -/
def percent (doneCount total : Nat) : Int :=
  truncToInt ((doneCount : ℚ) / (total : ℚ) * 80)

/-- Outcomes of the system calls made inside `RunFFmpegExtract`: the errors of
`os.MkdirAll` and of `cmd.Run`, what ffmpeg wrote to stderr, and whether the
output file is on disk afterwards. -/
structure ExtractSys where
  mkdirAll : Option String
  run : Option String
  stderr : String
  created : Bool

/-- The results `(diagnostic text, error)` of `RunFFmpegExtract` (ffmpeg.go 39-82). -/
def RunFFmpegExtract (w : ExtractSys) : String × Option String :=
  match w.mkdirAll with
  | some e => ("", some e)
  | none =>
    match w.run with
    | some e => (w.stderr, some ("ffmpeg extract failed: " ++ e))
    | none => (w.stderr, none)

/-- Outcomes of the system calls made inside `ConcatSegments`: the errors of
`os.MkdirAll`, `os.MkdirTemp`, `os.Create` and `cmd.Run`, and what ffmpeg wrote
to stderr. -/
structure ConcatSys where
  mkdirAll : Option String
  mkdirTemp : Option String
  create : Option String
  run : Option String
  stderr : String

/-- The results `(diagnostic text, error)` of `ConcatSegments` (ffmpeg.go 85-132). -/
def ConcatSegments (w : ConcatSys) : String × Option String :=
  match w.mkdirAll with
  | some e => ("", some e)
  | none =>
    match w.mkdirTemp with
    | some e => ("", some e)
    | none =>
      match w.create with
      | some e => ("", some e)
      | none =>
        match w.run with
        | some e => (w.stderr, some ("ffmpeg concat failed: " ++ e))
        | none => (w.stderr, none)

/-- Where an extraction goroutine (lines 165-180) stands. -/
inductive TaskPc where
  /-- started, blocked on `limit <- struct{}{}` (line 167) -/
  | queued
  /-- slot taken, `RunFFmpegExtract` running (line 170) -/
  | inflight
  /-- the transcoder returned `err`; the critical section is still ahead -/
  | returned (err : Option String)
  /-- `doneMu.Unlock()` passed (line 179); the deferred calls are still ahead -/
  | reported
  /-- `<-limit` and `wg.Done()` ran -/
  | done
  deriving DecidableEq

/-- Where the main routine of `run` stands from line 156 on. -/
inductive MainPc where
  /-- at the `select` of line 157 for the request of index `k` -/
  | dispatch (k : Nat)
  /-- in `wg.Wait()` (line 183) -/
  | waiting
  /-- inside `ConcatSegments` (line 199) with the surviving paths -/
  | concatenating (existing : List String)
  /-- `run` returned -/
  | exited
  deriving DecidableEq

/-- State of the run from line 150 on. -/
structure OState where
  main : MainPc
  tasks : List TaskPc
  limit : Nat
  doneCount : Nat
  cancelled : Bool
  disk : List String
  events : List Event

/-- The scheduler's choices. -/
inductive Action where
  /-- `Processor.Stop`: the context of the run is cancelled -/
  | stop
  /-- the main routine takes its next step -/
  | main
  /-- goroutine `i` gets a slot of `limit` and calls the transcoder -/
  | acquire (i : Nat)
  /-- the transcoder call of goroutine `i` returns, the system having answered `w` -/
  | extractReturn (i : Nat) (w : ExtractSys)
  /-- goroutine `i` runs the critical section of lines 171-179 -/
  | report (i : Nat)
  /-- goroutine `i` runs its deferred `<-limit` and `wg.Done()` -/
  | release (i : Nat)
  /-- `ConcatSegments` returns, the system having answered `w` -/
  | concatReturn (w : ConcatSys)

/-- Lines 174-178: the log line of a finished extraction. -/
def extractLog (env : Env) (req : SegmentRequest) : Option String → Event
  | some e => .log ("Failed to extract " ++ req.SrcPath ++ ": " ++ e)
  | none => .log ("Extracted segment: " ++ env.Base req.OutPath)

/-- Lines 186-191: the output paths for which `os.Stat` succeeds, in the
order of `segRequests`. -/
def existingPaths (reqs : List SegmentRequest) (disk : List String) : List String :=
  (reqs.map (fun req => req.OutPath)).filter (fun p => decide (p ∈ disk))

/-- The next step of the main routine, lines 156-211. -/
def mainStep (cfg : Config) (reqs : List SegmentRequest) (s : OState) : Option OState :=
  match s.main with
  | .dispatch k =>
    match reqs[k]? with
    | some req =>
      if s.cancelled then
        some { s with main := .exited, events := s.events ++ [.finished false "Cancelled"] }
      else
        some { s with main := .dispatch (k + 1), tasks := s.tasks ++ [.queued],
                      events := s.events ++ [.submit k req] }
    | none => some { s with main := .waiting }
  | .waiting =>
    if s.tasks.all (fun t => decide (t = .done)) then
      let existing := existingPaths reqs s.disk
      if existing.length = 0 then
        some { s with main := .exited,
                      events := s.events ++ [.finished false "Extraction failed for all segments"] }
      else
        some { s with main := .concatenating existing,
                      events := s.events ++ [.log "Concatenating segments...",
                        .concat existing cfg.OutputPath cfg.GPU] }
    else none
  | .concatenating _ => none
  | .exited => none

/-- One transition of the run. `none`: the chosen thread cannot move. -/
def step (cfg : Config) (env : Env) (reqs : List SegmentRequest) (s : OState) :
    Action → Option OState
  | .stop => some { s with cancelled := true }
  | .main => mainStep cfg reqs s
  | .acquire i =>
    match s.tasks[i]?, reqs[i]? with
    | some .queued, some req =>
      if s.limit < 4 then
        some { s with tasks := s.tasks.set i .inflight, limit := s.limit + 1,
                      events := s.events ++ [.extract i req cfg.GPU] }
      else none
    | _, _ => none
  | .extractReturn i w =>
    match s.tasks[i]?, reqs[i]? with
    | some .inflight, some req =>
      some { s with tasks := s.tasks.set i (.returned (RunFFmpegExtract w).2),
                    disk := if w.created then req.OutPath :: s.disk else s.disk }
    | _, _ => none
  | .report i =>
    match s.tasks[i]?, reqs[i]? with
    | some (.returned err), some req =>
      some { s with tasks := s.tasks.set i .reported, doneCount := s.doneCount + 1,
                    events := s.events ++
                      [.progress (percent (s.doneCount + 1) reqs.length), extractLog env req err] }
    | _, _ => none
  | .release i =>
    match s.tasks[i]? with
    | some .reported => some { s with tasks := s.tasks.set i .done, limit := s.limit - 1 }
    | _ => none
  | .concatReturn w =>
    match s.main with
    | .concatenating existing =>
      match (ConcatSegments w).2 with
      | some e =>
        some { s with main := .exited,
                      events := s.events ++ [.finished false ("Concat failed: " ++ e)] }
      | none =>
        some { s with main := .exited,
                      disk := s.disk.filter (fun p => decide (p ∉ existing)),
                      events := s.events ++ [.progress 100, .finished true cfg.OutputPath] ++
                        existing.map Event.remove }
    | _ => none

/-- Run of a schedule; `none` as soon as a chosen thread cannot move. -/
def exec (cfg : Config) (env : Env) (reqs : List SegmentRequest) :
    OState → List Action → Option OState
  | s, [] => some s
  | s, a :: rest =>
    match step cfg env reqs s a with
    | some s1 => exec cfg env reqs s1 rest
    | none => none

/-- Lines 139-154: the state in which the dispatch loop is entered with the
request list `reqs`. -/
def dispatchState (events : List Event) (cancelled : Bool) (disk : List String) : OState :=
  ⟨.dispatch 0, [], 0, 0, cancelled, disk, events⟩

/-- Lines 61-154: planning, the empty-plan exit, the shuffle, and the
recovery from a panic; the result is the request list handed to the
dispatch loop and the state in which the loop is entered (or `exited`). -/
def start (cfg : Config) (env : Env) (r : Rng) (cancelled : Bool) (disk : List String) :
    List SegmentRequest × OState :=
  match plan cfg env r with
  | .error (events, e) =>
    ([], ⟨.exited, [], 0, 0, cancelled, disk,
      events ++ [.log ("Panic: " ++ e), .finished false ("Critical error: " ++ e)]⟩)
  | .ok st =>
    if st.segRequests.length = 0 then
      ([], ⟨.exited, [], 0, 0, cancelled, disk,
        st.events ++ [.finished false "No segments to process"]⟩)
    else
      let reqs := if cfg.ShuffleSegments then (st.rng.Shuffle st.segRequests).1
                  else st.segRequests
      (reqs, dispatchState st.events cancelled disk)

/-! ## Predicates used in the statements -/

/-- What randomized mode promises for one chosen interval. -/
def RandOk (cfg : Config) (D : ℚ) (c : Chosen) : Prop :=
  (cfg.SegmentMin : ℚ) ≤ c.dur ∧ c.dur ≤ (cfg.SegmentMax : ℚ) ∧
    minStartOffset cfg ≤ c.start ∧ c.start ≤ D - c.dur

/-- The fields of a request that the planner decides. -/
def SegmentRequest.core (q : SegmentRequest) : String × ℚ × ℚ := (q.SrcPath, q.Start, q.Duration)

/-! ## Sample inputs -/

/-- A world in which every probe answers `D`. -/
def sampleEnv (D : ℚ) : Env :=
  ⟨fun _ => .ok D, fun p => p, fun a b c => a ++ "/" ++ b ++ "/" ++ c, "/tmp", fun n => (n : Int)⟩

/-- A generator whose `Intn` outcomes are all `0` and whose `Float64` outcomes are all `u`. -/
def sampleRng (u : ℚ) : Rng := ⟨fun _ => 0, fun _ => u, 0, 0⟩

/-- The planner state before the first file, without the opening log line. -/
def samplePlanState (u : ℚ) : PlanState := ⟨sampleRng u, 0, [], []⟩

/-- Sequential mode with a negative start offset. -/
def cfgNegOffset : Config := ⟨["a.mp4"], 1, 1, 10, 10, -1, false, false, false, "out.mp4"⟩

/-- Sequential mode with segments of length zero. -/
def cfgZeroLen : Config := ⟨["a.mp4"], 1, 1, 0, 0, 0, false, false, false, "out.mp4"⟩

/-- The sequential example of the specification: offset 1 min, 60 s segments, 5 per file. -/
def cfgSeq : Config := ⟨["a.mp4"], 5, 5, 60, 60, 1, false, false, false, "out.mp4"⟩

/-- The randomized example of the specification: offset 0, 30 s segments, 3 per file. -/
def cfgRand : Config := ⟨["a.mp4"], 3, 3, 30, 30, 0, true, false, false, "out.mp4"⟩

/-- Randomized mode asking for segments of up to 200 s. -/
def cfgNoRoom : Config := ⟨["a.mp4"], 1, 1, 10, 200, 0, true, false, false, "out.mp4"⟩

/-- Sequential mode with `SegmentMin = SegmentMax = 2^62`, whose sum overflows. -/
def cfgBigSeg : Config :=
  ⟨["a.mp4"], 1, 1, 4611686018427387904, 4611686018427387904, 0, false, false, false, "out.mp4"⟩

/-- Randomized mode with a segment range whose width overflows. -/
def cfgWideSeg : Config :=
  ⟨["a.mp4"], 1, 1, -9223372036854775000, 1000, 0, true, false, false, "out.mp4"⟩

/-- Randomized mode with `CountMin = CountMax = -1`. -/
def cfgNegCount : Config := ⟨["a.mp4"], -1, -1, 30, 30, 0, true, false, false, "out.mp4"⟩

/-! ## The orchestrator: counters, trace projections and invariants -/

/-- The goroutine holds a slot of `limit`. -/
def TaskPc.holding : TaskPc → Bool
  | .inflight => true
  | .returned _ => true
  | .reported => true
  | _ => false

/-- The transcoder call of the goroutine is in flight. -/
def TaskPc.running : TaskPc → Bool
  | .inflight => true
  | _ => false

/-- The goroutine has passed the critical section, so `doneCount` counts it. -/
def TaskPc.counted : TaskPc → Bool
  | .reported => true
  | .done => true
  | _ => false

/-- Number of transcoder calls in flight. -/
def inFlight (s : OState) : Nat := s.tasks.countP TaskPc.running

/-- Number of goroutines holding a slot. -/
def holders (s : OState) : Nat := s.tasks.countP TaskPc.holding

/-- The slot discipline of `limit`. -/
def SlotInv (s : OState) : Prop := holders s = s.limit ∧ s.limit ≤ 4

/-- Events of the main routine's control flow: dispatches, the concatenator
call, the removals and the terminal outcome. -/
def Event.isControl : Event → Bool
  | .finished _ _ => true
  | .concat _ _ _ => true
  | .remove _ => true
  | .submit _ _ => true
  | _ => false

/-- The control events of a trace, in order. -/
def controlOf (events : List Event) : List Event := events.filter Event.isControl

/-- The percentage of a progress report. -/
def Event.pct : Event → Option Int
  | .progress p => some p
  | _ => none

/-- The progress reports of a trace, in order. -/
def progressOf (events : List Event) : List Int := events.filterMap Event.pct

/-- The successful terminal outcome. -/
def Event.isSuccess : Event → Bool
  | .finished true _ => true
  | _ => false

/-- The trace contains a successful terminal outcome. -/
def succeeded (events : List Event) : Bool := events.any Event.isSuccess

/-- The dispatch events of the first `k` requests. -/
def submitsUpTo (reqs : List SegmentRequest) (k : Nat) : List Event :=
  (List.range k).filterMap (fun i => (reqs[i]?).map (Event.submit i))

/-- Every started goroutine has run to its end. -/
def allDone (tasks : List TaskPc) : Prop := ∀ t ∈ tasks, t = .done

/-- What the position of the main routine says about the trace. -/
def PhaseInv (cfg : Config) (reqs : List SegmentRequest) (s : OState) : Prop :=
  match s.main with
  | .dispatch k =>
    s.tasks.length = k ∧ controlOf s.events = submitsUpTo reqs k
  | .waiting =>
    controlOf s.events = submitsUpTo reqs s.tasks.length
  | .concatenating existing =>
    allDone s.tasks ∧ existing ≠ [] ∧
      controlOf s.events =
        submitsUpTo reqs s.tasks.length ++ [.concat existing cfg.OutputPath cfg.GPU]
  | .exited => True

/-- The invariant of the run. -/
def RunInv (cfg : Config) (reqs : List SegmentRequest) (s : OState) : Prop :=
  s.doneCount = s.tasks.countP TaskPc.counted ∧
  s.tasks.length ≤ reqs.length ∧
  progressOf s.events =
    (List.range s.doneCount).map (fun j => percent (j + 1) reqs.length) ++
      (if succeeded s.events then [100] else []) ∧
  (succeeded s.events = true → allDone s.tasks ∧ s.main = .exited) ∧
  (∀ i r g, Event.extract i r g ∈ s.events → i < s.tasks.length) ∧
  PhaseInv cfg reqs s

/-- The trace holds log lines only, as the trace of planning does. -/
def AllLogs (events : List Event) : Prop := ∀ e ∈ events, ∃ m, e = Event.log m

/-- Transitions a goroutine still has to take. -/
def TaskPc.stepsLeft : TaskPc → Nat
  | .queued => 4
  | .inflight => 3
  | .returned _ => 2
  | .reported => 1
  | .done => 0

/-- Transitions the started goroutines still have to take. -/
def workLeft (s : OState) : Nat := (s.tasks.map TaskPc.stepsLeft).sum

/-! ## Sample runs -/

/-- An answer of the system in which the transcoder succeeds. -/
def extractOk : ExtractSys := ⟨none, none, "", true⟩

/-- Five requests with the scratch paths `s0` to `s4`. -/
def sampleReqs : List SegmentRequest :=
  [⟨"a.mp4", 0, 1, "s0"⟩, ⟨"a.mp4", 1, 1, "s1"⟩, ⟨"a.mp4", 2, 1, "s2"⟩, ⟨"a.mp4", 3, 1, "s3"⟩,
    ⟨"a.mp4", 4, 1, "s4"⟩]

/-- All five requests dispatched and the first four goroutines inside the transcoder. -/
def schedFourInFlight : List Action :=
  [.main, .main, .main, .main, .main, .acquire 0, .acquire 1, .acquire 2, .acquire 3]

/-- The first two of the sample requests. -/
def sampleReqs2 : List SegmentRequest := [⟨"a.mp4", 0, 1, "s0"⟩, ⟨"a.mp4", 1, 1, "s1"⟩]

/-- An answer of the system in which the concatenator succeeds. -/
def concatOk : ConcatSys := ⟨none, none, none, none, ""⟩

/-- An answer of the system in which ffmpeg fails while concatenating. -/
def concatFail : ConcatSys :=
  ⟨none, none, none, some "exit status 1", "list.txt: Invalid data found when processing input"⟩

/-- An answer of the system in which the transcoder fails and leaves no file. -/
def extractFail : ExtractSys := ⟨none, some "exit status 1", "Invalid argument", false⟩

/-- A complete successful run over two requests. -/
def schedTwoOk : List Action :=
  [.main, .main, .acquire 0, .acquire 1, .extractReturn 0 extractOk, .extractReturn 1 extractOk,
    .report 0, .report 1, .release 0, .release 1, .main, .main, .concatReturn concatOk]

/-- Five extractions, of which those of index 0, 2 and 4 leave no file, up to the
return of `wg.Wait()`. -/
def schedThreeFail : List Action :=
  [.main, .main, .main, .main, .main,
    .acquire 0, .extractReturn 0 extractFail, .report 0, .release 0,
    .acquire 1, .extractReturn 1 extractOk, .report 1, .release 1,
    .acquire 2, .extractReturn 2 extractFail, .report 2, .release 2,
    .acquire 3, .extractReturn 3 extractOk, .report 3, .release 3,
    .acquire 4, .extractReturn 4 extractFail, .report 4, .release 4,
    .main]

/-- Two extractions succeed and the concatenator then fails. -/
def schedConcatFail : List Action :=
  [.main, .main, .acquire 0, .acquire 1, .extractReturn 0 extractOk, .extractReturn 1 extractOk,
    .report 0, .report 1, .release 0, .release 1, .main, .main, .concatReturn concatFail]

/-- The main routine inside `ConcatSegments`, both extractions over. -/
def stateConcatenating : OState :=
  ⟨.concatenating ["s0", "s1"], [.done, .done], 0, 2, false, ["s1", "s0"], []⟩

/-- Three requests dispatched, two transcoder calls under way, then `Stop`. -/
def schedThenStop : List Action :=
  [.main, .main, .main, .acquire 0, .acquire 1, .extractReturn 0 extractOk, .stop]

/-- The state reached by `schedThreeFail`: `wg.Wait()` is about to return, and of the
five outputs only `s1` and `s3` are on disk. -/
def stateThreeFail : OState :=
  ⟨.waiting, [.done, .done, .done, .done, .done], 0, 5, false, ["s3", "s1"],
    [.submit 0 ⟨"a.mp4", 0, 1, "s0"⟩, .submit 1 ⟨"a.mp4", 1, 1, "s1"⟩,
      .submit 2 ⟨"a.mp4", 2, 1, "s2"⟩, .submit 3 ⟨"a.mp4", 3, 1, "s3"⟩,
      .submit 4 ⟨"a.mp4", 4, 1, "s4"⟩,
      .extract 0 ⟨"a.mp4", 0, 1, "s0"⟩ false, .progress (percent 1 5),
      .log "Failed to extract a.mp4: ffmpeg extract failed: exit status 1",
      .extract 1 ⟨"a.mp4", 1, 1, "s1"⟩ false, .progress (percent 2 5),
      .log "Extracted segment: s1",
      .extract 2 ⟨"a.mp4", 2, 1, "s2"⟩ false, .progress (percent 3 5),
      .log "Failed to extract a.mp4: ffmpeg extract failed: exit status 1",
      .extract 3 ⟨"a.mp4", 3, 1, "s3"⟩ false, .progress (percent 4 5),
      .log "Extracted segment: s3",
      .extract 4 ⟨"a.mp4", 4, 1, "s4"⟩ false, .progress (percent 5 5),
      .log "Failed to extract a.mp4: ffmpeg extract failed: exit status 1"]⟩

/-- The state reached by `schedThenStop`: the check before the request of index 3 is
next and the context is cancelled. -/
def stateStopped : OState :=
  ⟨.dispatch 3, [.returned none, .inflight, .queued], 2, 0, true, ["s0"],
    [.submit 0 ⟨"a.mp4", 0, 1, "s0"⟩, .submit 1 ⟨"a.mp4", 1, 1, "s1"⟩,
      .submit 2 ⟨"a.mp4", 2, 1, "s2"⟩,
      .extract 0 ⟨"a.mp4", 0, 1, "s0"⟩ false, .extract 1 ⟨"a.mp4", 1, 1, "s1"⟩ false]⟩

/-- The state in which `run` has returned after seeing the cancellation in `stateStopped`. -/
def stateCancelled : OState :=
  ⟨.exited, [.returned none, .inflight, .queued], 2, 0, true, ["s0"],
    [.submit 0 ⟨"a.mp4", 0, 1, "s0"⟩, .submit 1 ⟨"a.mp4", 1, 1, "s1"⟩,
      .submit 2 ⟨"a.mp4", 2, 1, "s2"⟩,
      .extract 0 ⟨"a.mp4", 0, 1, "s0"⟩ false, .extract 1 ⟨"a.mp4", 1, 1, "s1"⟩ false,
      .finished false "Cancelled"]⟩

/-- The three goroutines started before the cancellation run to their end. -/
def schedAfterStop : List Action :=
  [.extractReturn 1 extractOk, .report 0, .report 1, .release 0, .release 1,
    .acquire 2, .extractReturn 2 extractOk, .report 2, .release 2]

/-! ## The planner: lemmas -/

theorem wrap64_eq (x : Int) (h : IsInt64 x) : wrap64 x = x := by
  unfold IsInt64 at h
  unfold wrap64
  omega

theorem wrap64_le_self (x : Int) (h : 0 ≤ x) : wrap64 x ≤ x := by
  unfold wrap64
  omega

theorem countArg_eq (cfg : Config) (hcount : cfg.CountMin ≤ cfg.CountMax)
    (hfit : cfg.CountMax - cfg.CountMin < 9223372036854775807) :
    countArg cfg = cfg.CountMax - cfg.CountMin + 1 := by
  unfold countArg wrap64
  omega

theorem drawnCount_range (cfg : Config) (hrange : cfg.InRange)
    (hcount : cfg.CountMin ≤ cfg.CountMax) (d : Int) (h0 : 0 ≤ d) (hd : d < countArg cfg) :
    drawnCount cfg d = d + cfg.CountMin ∧ cfg.CountMin ≤ drawnCount cfg d ∧
      drawnCount cfg d ≤ cfg.CountMax := by
  obtain ⟨⟨a1, a2⟩, ⟨b1, b2⟩, _⟩ := hrange
  unfold countArg wrap64 at hd
  unfold drawnCount wrap64
  omega

theorem seqLoop_spec (cfg : Config) (D : ℚ) :
    ∀ (n : Nat) (cur : ℚ) (acc : List Chosen), cur ≤ D →
      ∃ k, k ≤ n ∧
        seqLoop cfg D n cur acc =
          acc ++ (List.range k).map (fun i : Nat => (⟨cur + (i : ℚ) * seqSegLen cfg, seqSegLen cfg⟩ : Chosen)) ∧
        cur + (k : ℚ) * seqSegLen cfg ≤ D ∧
        ∀ j : Nat, j ≤ n → cur + (j : ℚ) * seqSegLen cfg ≤ D → j ≤ k := by
  intro n
  induction n with
  | zero =>
    intro cur acc h
    refine ⟨0, le_refl _, by simp [seqLoop], by simpa using h, ?_⟩
    intro j hj _
    exact hj
  | succ n ih =>
    intro cur acc h
    by_cases hbrk : cur + seqSegLen cfg > D
    · refine ⟨0, Nat.zero_le _, by simp [seqLoop, hbrk], by simpa using h, ?_⟩
      intro j _ hjD
      by_contra hne
      have hj1 : (1 : ℚ) ≤ (j : ℚ) := by
        have : 1 ≤ j := by omega
        exact_mod_cast this
      have hL : 0 < seqSegLen cfg := by linarith
      nlinarith
    · have hle : cur + seqSegLen cfg ≤ D := not_lt.mp hbrk
      obtain ⟨k, hk, heq, hfit, hmax⟩ := ih (cur + seqSegLen cfg) (acc ++ [⟨cur, seqSegLen cfg⟩]) hle
      refine ⟨k + 1, Nat.succ_le_succ hk, ?_, ?_, ?_⟩
      · simp only [seqLoop, hbrk, if_false]
        rw [heq, List.range_succ_eq_map, List.map_cons, List.map_map, List.append_assoc]
        congr 1
        simp only [List.singleton_append, Nat.cast_zero, zero_mul, add_zero, List.cons.injEq, true_and]
        apply List.map_congr_left
        intro i _
        simp only [Function.comp, Nat.cast_succ]
        congr 1
        ring
      · push_cast
        linarith
      · intro j hj hjD
        cases j with
        | zero => exact Nat.zero_le _
        | succ j =>
          have := hmax j (Nat.le_of_succ_le_succ hj) (by push_cast at hjD; linarith)
          omega

theorem Rng.Float64_mem (r : Rng) (h : r.Uniform) : 0 ≤ r.Float64.1 ∧ r.Float64.1 < 1 := h r.fpos

theorem Rng.Float64_uniform (r : Rng) (h : r.Uniform) : r.Float64.2.Uniform := h

theorem Rng.Intn_ok (r : Rng) (k : Int) (d : Int) (r1 : Rng) (h : r.Intn k = .ok (d, r1)) :
    0 < k ∧ 0 ≤ d ∧ d < k ∧ r1.floats = r.floats := by
  unfold Rng.Intn at h
  split at h
  · cases h
  · rename_i hk
    have hk0 : 0 < k := not_le.mp hk
    injection h with h
    injection h with h1 h2
    subst h1 h2
    refine ⟨hk0, Int.ofNat_nonneg _, ?_, rfl⟩
    have hpos : 0 < k.toNat := by omega
    have := Nat.mod_lt (r.ints r.ipos) hpos
    omega

theorem Rng.Intn_isOk (r : Rng) (k : Int) (hk : 0 < k) : ∃ d r1, r.Intn k = .ok (d, r1) := by
  unfold Rng.Intn
  rw [if_neg (not_le.mpr hk)]
  exact ⟨_, _, rfl⟩

theorem randSegLen_bounds (cfg : Config) (hseg : cfg.SegmentMin ≤ cfg.SegmentMax)
    (hdiff : cfg.SegmentMax - cfg.SegmentMin < 9223372036854775808) (u : ℚ)
    (h0 : 0 ≤ u) (h1 : u < 1) :
    (cfg.SegmentMin : ℚ) ≤ randSegLen cfg u ∧ randSegLen cfg u ≤ (cfg.SegmentMax : ℚ) := by
  have hw : wrap64 (cfg.SegmentMax - cfg.SegmentMin) = cfg.SegmentMax - cfg.SegmentMin :=
    wrap64_eq _ ⟨by omega, hdiff⟩
  have hd : (0 : ℚ) ≤ ((cfg.SegmentMax - cfg.SegmentMin : Int) : ℚ) := by
    have : (0 : Int) ≤ cfg.SegmentMax - cfg.SegmentMin := by omega
    exact_mod_cast this
  have hcast : ((cfg.SegmentMax - cfg.SegmentMin : Int) : ℚ)
      = (cfg.SegmentMax : ℚ) - (cfg.SegmentMin : ℚ) := by push_cast; ring
  unfold randSegLen
  rw [hw]
  constructor
  · nlinarith [mul_nonneg h0 hd]
  · have : u * ((cfg.SegmentMax - cfg.SegmentMin : Int) : ℚ)
        ≤ 1 * ((cfg.SegmentMax - cfg.SegmentMin : Int) : ℚ) :=
      mul_le_mul_of_nonneg_right (le_of_lt h1) hd
    linarith

theorem randSegLen_le_max (cfg : Config) (hseg : cfg.SegmentMin ≤ cfg.SegmentMax) (u : ℚ)
    (h0 : 0 ≤ u) (h1 : u < 1) : randSegLen cfg u ≤ (cfg.SegmentMax : ℚ) := by
  have hx : (0 : Int) ≤ cfg.SegmentMax - cfg.SegmentMin := by omega
  have hle : wrap64 (cfg.SegmentMax - cfg.SegmentMin) ≤ cfg.SegmentMax - cfg.SegmentMin :=
    wrap64_le_self _ hx
  have hleq : ((wrap64 (cfg.SegmentMax - cfg.SegmentMin) : Int) : ℚ)
      ≤ (cfg.SegmentMax : ℚ) - (cfg.SegmentMin : ℚ) := by
    have : ((wrap64 (cfg.SegmentMax - cfg.SegmentMin) : Int) : ℚ)
        ≤ ((cfg.SegmentMax - cfg.SegmentMin : Int) : ℚ) := by exact_mod_cast hle
    push_cast at this
    exact this
  have hdq : (0 : ℚ) ≤ (cfg.SegmentMax : ℚ) - (cfg.SegmentMin : ℚ) := by
    have : ((0 : Int) : ℚ) ≤ ((cfg.SegmentMax - cfg.SegmentMin : Int) : ℚ) := by exact_mod_cast hx
    push_cast at this
    exact this
  unfold randSegLen
  by_cases hw : (0 : ℚ) ≤ ((wrap64 (cfg.SegmentMax - cfg.SegmentMin) : Int) : ℚ)
  · have : u * ((wrap64 (cfg.SegmentMax - cfg.SegmentMin) : Int) : ℚ)
        ≤ 1 * ((wrap64 (cfg.SegmentMax - cfg.SegmentMin) : Int) : ℚ) :=
      mul_le_mul_of_nonneg_right (le_of_lt h1) hw
    linarith
  · have hneg : ((wrap64 (cfg.SegmentMax - cfg.SegmentMin) : Int) : ℚ) ≤ 0 := le_of_lt (not_le.mp hw)
    have : u * ((wrap64 (cfg.SegmentMax - cfg.SegmentMin) : Int) : ℚ) ≤ 0 :=
      mul_nonpos_of_nonneg_of_nonpos h0 hneg
    linarith

theorem randStart_bounds (cfg : Config) (D L u : ℚ) (hfit : ¬ D - minStartOffset cfg < L)
    (h0 : 0 ≤ u) (h1 : u < 1) :
    minStartOffset cfg ≤ randStart cfg D L u ∧ randStart cfg D L u ≤ D - L := by
  have hw : 0 ≤ D - minStartOffset cfg - L := by linarith [not_lt.mp hfit]
  unfold randStart
  constructor
  · nlinarith [mul_nonneg h0 hw]
  · have : u * (D - minStartOffset cfg - L) ≤ 1 * (D - minStartOffset cfg - L) :=
      mul_le_mul_of_nonneg_right (le_of_lt h1) hw
    linarith

theorem randLoop_floats (cfg : Config) (D : ℚ) :
    ∀ (n : Nat) (r : Rng) (acc : List Chosen), (randLoop cfg D n r acc).2.floats = r.floats := by
  intro n
  induction n with
  | zero => intro r acc; rfl
  | succ n ih =>
    intro r acc
    simp only [randLoop]
    split
    · rfl
    · rw [ih]; rfl

theorem randLoop_bounds (cfg : Config) (D : ℚ) (hseg : cfg.SegmentMin ≤ cfg.SegmentMax)
    (hdiff : cfg.SegmentMax - cfg.SegmentMin < 9223372036854775808) :
    ∀ (n : Nat) (r : Rng) (acc : List Chosen), r.Uniform → (∀ c ∈ acc, RandOk cfg D c) →
      ∀ c ∈ (randLoop cfg D n r acc).1, RandOk cfg D c := by
  intro n
  induction n with
  | zero => intro r acc _ hacc; simpa [randLoop] using hacc
  | succ n ih =>
    intro r acc hr hacc
    simp only [randLoop]
    split
    · exact hacc
    · rename_i hfit
      have hu1 := Rng.Float64_mem r hr
      have hr1 := Rng.Float64_uniform r hr
      have hu2 := Rng.Float64_mem _ hr1
      have hr2 := Rng.Float64_uniform _ hr1
      apply ih _ _ hr2
      intro c hc
      rcases List.mem_append.mp hc with hc | hc
      · exact hacc c hc
      · rw [List.mem_singleton] at hc
        subst hc
        have hL := randSegLen_bounds cfg hseg hdiff _ hu1.1 hu1.2
        have hS := randStart_bounds cfg D _ _ hfit hu2.1 hu2.2
        exact ⟨hL.1, hL.2, hS.1, hS.2⟩

theorem randLoop_length (cfg : Config) (D : ℚ) (hseg : cfg.SegmentMin ≤ cfg.SegmentMax)
    (hroom : ¬ D - minStartOffset cfg < (cfg.SegmentMax : ℚ)) :
    ∀ (n : Nat) (r : Rng) (acc : List Chosen), r.Uniform →
      (randLoop cfg D n r acc).1.length = acc.length + n := by
  intro n
  induction n with
  | zero => intro r acc _; simp [randLoop]
  | succ n ih =>
    intro r acc hr
    have hu1 := Rng.Float64_mem r hr
    have hL := randSegLen_le_max cfg hseg _ hu1.1 hu1.2
    have hfit : ¬ D - minStartOffset cfg < randSegLen cfg r.Float64.1 := by
      intro hlt
      exact hroom (lt_of_lt_of_le hlt hL)
    simp only [randLoop, hfit, if_false]
    rw [ih _ _ (Rng.Float64_uniform _ (Rng.Float64_uniform r hr))]
    simp only [List.length_append, List.length_singleton]
    omega

theorem appendRequests_spec (env : Env) (file : String) :
    ∀ (chosen : List Chosen) (i clock : Nat) (reqs : List SegmentRequest),
      ∃ new, (appendRequests env file chosen i clock reqs).1 = reqs ++ new ∧
        new.map SegmentRequest.core = chosen.map (fun c => (file, c.start, c.dur)) := by
  intro chosen
  induction chosen with
  | nil => intro i clock reqs; exact ⟨[], by simp [appendRequests], rfl⟩
  | cons c rest ih =>
    intro i clock reqs
    let q : SegmentRequest := ⟨file, c.start, c.dur,
        env.Join env.TempDir "video_processor_segments"
          (env.Base file ++ "_seg_" ++ toString i ++ "_" ++ toString (env.UnixNano clock) ++ ".mp4")⟩
    obtain ⟨new, h1, h2⟩ := ih (i + 1) (clock + 1) (reqs ++ [q])
    refine ⟨q :: new, ?_, ?_⟩
    · simp only [appendRequests]
      rw [h1, List.append_assoc]
      rfl
    · simp only [List.map_cons, h2]
      rfl

theorem chooseSegments_floats (cfg : Config) (D : ℚ) (n : Int) (r r2 : Rng) (chosen : List Chosen)
    (h : chooseSegments cfg D n r = some (chosen, r2)) : r2.floats = r.floats := by
  unfold chooseSegments at h
  split at h
  · injection h with h; injection h with _ h2; rw [← h2]
  · simp only at h
    split at h
    · cases h
    · injection h with h
      have := randLoop_floats cfg D n.toNat r []
      rw [h] at this
      exact this

/-- How `planFile` extends the plan: it appends the requests of the intervals
chosen for the file, whenever it does not panic. -/
theorem planFile_ok (cfg : Config) (env : Env) (st st1 : PlanState) (file : String)
    (h : planFile cfg env st file = .ok st1) :
    st1.rng.floats = st.rng.floats ∧
    ∃ new, st1.segRequests = st.segRequests ++ new ∧
      (new = [] ∨ ∃ D n r1 chosen r2, env.GetVideoDuration file = .ok D ∧
        ¬ D ≤ minStartOffset cfg + 1 ∧ r1.floats = st.rng.floats ∧
        chooseSegments cfg D n r1 = some (chosen, r2) ∧
        new.map SegmentRequest.core = chosen.map (fun c => (file, c.start, c.dur))) := by
  unfold planFile at h
  split at h
  · injection h with h; subst h
    exact ⟨rfl, [], by simp, Or.inl rfl⟩
  · rename_i D hD
    split at h
    · injection h with h; subst h
      exact ⟨rfl, [], by simp, Or.inl rfl⟩
    · rename_i hlong
      split at h
      · cases h
      · rename_i d r1 hdraw
        have hr1 := (Rng.Intn_ok _ _ _ _ hdraw).2.2.2
        simp only at h
        split at h
        · injection h with h; subst h
          exact ⟨hr1, [], by simp, Or.inl rfl⟩
        · rename_i chosen r2 hch
          injection h with h; subst h
          have hr2 := chooseSegments_floats _ _ _ _ _ _ hch
          obtain ⟨new, hn1, hn2⟩ := appendRequests_spec env file chosen 0 st.clock st.segRequests
          exact ⟨hr2.trans hr1, new, hn1, Or.inr ⟨D, _, r1, chosen, r2, hD, hlong, hr1, hch, hn2⟩⟩

theorem planLoop_inv (cfg : Config) (env : Env) (Q : SegmentRequest → Prop)
    (hstep : ∀ (st st1 : PlanState) (file : String), st.rng.Uniform →
      planFile cfg env st file = .ok st1 → ∀ new, st1.segRequests = st.segRequests ++ new →
        ∀ q ∈ new, Q q) :
    ∀ (files : List String) (st st1 : PlanState), st.rng.Uniform →
      planLoop cfg env files st = .ok st1 →
      (∀ q ∈ st.segRequests, Q q) → ∀ q ∈ st1.segRequests, Q q := by
  intro files
  induction files with
  | nil =>
    intro st st1 _ h hst
    simp only [planLoop] at h
    injection h with h; subst h
    exact hst
  | cons file rest ih =>
    intro st st1 hu h hst
    simp only [planLoop] at h
    split at h
    · cases h
    · rename_i st2 h2
      obtain ⟨hfl, new, hnew, _⟩ := planFile_ok cfg env st st2 file h2
      have hu2 : st2.rng.Uniform := by
        intro i; rw [hfl]; exact hu i
      apply ih st2 st1 hu2 h
      intro q hq
      rw [hnew] at hq
      rcases List.mem_append.mp hq with hq | hq
      · exact hst q hq
      · exact hstep st st2 file hu h2 new hnew q hq

theorem planFile_isOk (cfg : Config) (env : Env) (st : PlanState) (file : String)
    (hk : 0 < countArg cfg) : ∃ st1, planFile cfg env st file = .ok st1 := by
  unfold planFile
  split
  · exact ⟨_, rfl⟩
  · split
    · exact ⟨_, rfl⟩
    · obtain ⟨d, r1, hd⟩ := Rng.Intn_isOk st.rng (countArg cfg) hk
      rw [hd]
      simp only
      split
      · exact ⟨_, rfl⟩
      · exact ⟨_, rfl⟩

theorem planLoop_isOk (cfg : Config) (env : Env) (hk : 0 < countArg cfg) :
    ∀ (files : List String) (st : PlanState), ∃ st1, planLoop cfg env files st = .ok st1 := by
  intro files
  induction files with
  | nil => intro st; exact ⟨st, rfl⟩
  | cons file rest ih =>
    intro st
    obtain ⟨st2, h2⟩ := planFile_isOk cfg env st file hk
    obtain ⟨st1, h1⟩ := ih st2
    exact ⟨st1, by simp only [planLoop, h2, h1]⟩

theorem seqLoop_valid (cfg : Config) (D : ℚ) (n : Nat)
    (hoff : 0 ≤ cfg.StartOffsetMin) (hlen : 0 < cfg.SegmentMin + cfg.SegmentMax)
    (hsum : cfg.SegmentMin + cfg.SegmentMax < 9223372036854775808)
    (hlong : ¬ D ≤ minStartOffset cfg + 1) :
    ∀ c ∈ seqLoop cfg D n (minStartOffset cfg) [],
      0 ≤ c.start ∧ 0 < c.dur ∧ c.start + c.dur ≤ D := by
  have hm : 0 ≤ minStartOffset cfg := by
    unfold minStartOffset
    have : (0 : ℚ) ≤ (cfg.StartOffsetMin : ℚ) := by exact_mod_cast hoff
    linarith
  have hL : 0 < seqSegLen cfg := by
    unfold seqSegLen
    rw [wrap64_eq _ ⟨by omega, hsum⟩]
    have : (0 : ℚ) < ((cfg.SegmentMin + cfg.SegmentMax : Int) : ℚ) := by exact_mod_cast hlen
    linarith
  obtain ⟨k, _, heq, hfit, _⟩ := seqLoop_spec cfg D n (minStartOffset cfg) []
    (by linarith [not_le.mp hlong])
  intro c hc
  rw [heq, List.nil_append, List.mem_map] at hc
  obtain ⟨i, hi, rfl⟩ := hc
  have hik : i < k := List.mem_range.mp hi
  have hi0 : (0 : ℚ) ≤ (i : ℚ) := Nat.cast_nonneg i
  have hik' : (i : ℚ) + 1 ≤ (k : ℚ) := by exact_mod_cast hik
  refine ⟨?_, hL, ?_⟩
  · simp only
    nlinarith [mul_nonneg hi0 (le_of_lt hL)]
  · simp only
    nlinarith [mul_le_mul_of_nonneg_right hik' (le_of_lt hL)]

theorem chooseSegments_valid (cfg : Config) (D : ℚ) (n : Int) (r r2 : Rng) (chosen : List Chosen)
    (hoff : 0 ≤ cfg.StartOffsetMin) (hmin : 0 < cfg.SegmentMin)
    (hseg : cfg.SegmentMin ≤ cfg.SegmentMax)
    (hsum : cfg.SegmentMin + cfg.SegmentMax < 9223372036854775808) (hr : r.Uniform)
    (hlong : ¬ D ≤ minStartOffset cfg + 1)
    (h : chooseSegments cfg D n r = some (chosen, r2)) :
    ∀ c ∈ chosen, 0 ≤ c.start ∧ 0 < c.dur ∧ c.start + c.dur ≤ D := by
  have hm : 0 ≤ minStartOffset cfg := by
    unfold minStartOffset
    have : (0 : ℚ) ≤ (cfg.StartOffsetMin : ℚ) := by exact_mod_cast hoff
    linarith
  unfold chooseSegments at h
  split at h
  · injection h with h; injection h with h1 _
    subst h1
    exact seqLoop_valid cfg D n.toNat hoff (by omega) hsum hlong
  · simp only at h
    split at h
    · cases h
    · injection h with h
      intro c hc
      have hb := randLoop_bounds cfg D hseg (by omega) n.toNat r [] hr (by simp) c
        (by rw [h]; exact hc)
      obtain ⟨h1, _, h3, h4⟩ := hb
      have hmin' : (0 : ℚ) < (cfg.SegmentMin : ℚ) := by exact_mod_cast hmin
      exact ⟨by linarith, by linarith, by linarith⟩

/-! ## The planner: claims -/

theorem uniform_of_floats (r r1 : Rng) (h : r1.floats = r.floats) (hr : r.Uniform) : r1.Uniform := by
  intro i; rw [h]; exact hr i

theorem mem_of_map_core (new : List SegmentRequest) (chosen : List Chosen) (file : String)
    (h : new.map SegmentRequest.core = chosen.map (fun c => (file, c.start, c.dur)))
    (q : SegmentRequest) (hq : q ∈ new) :
    ∃ c ∈ chosen, q.SrcPath = file ∧ q.Start = c.start ∧ q.Duration = c.dur := by
  have hm : q.core ∈ new.map SegmentRequest.core := List.mem_map_of_mem _ hq
  rw [h, List.mem_map] at hm
  obtain ⟨c, hc, heq⟩ := hm
  simp only [SegmentRequest.core, Prod.mk.injEq] at heq
  exact ⟨c, hc, heq.1.symm, heq.2.1.symm, heq.2.2.symm⟩

/-- C1 (amended): when moreover `0 < SegmentMin`, `0 ≤ StartOffsetMin` and
`SegmentMin + SegmentMax` does not overflow, every request that planning produces lies
inside its source: `0 ≤ start`, `duration > 0`, `start + duration ≤ sourceDuration`; and
planning returns when `CountMax - CountMin + 1` does not overflow. -/
theorem plan_segments_within_source (cfg : Config) (env : Env) (r : Rng)
    (hcount : cfg.CountMin ≤ cfg.CountMax) (hmin : 0 < cfg.SegmentMin)
    (hseg : cfg.SegmentMin ≤ cfg.SegmentMax) (hoff : 0 ≤ cfg.StartOffsetMin)
    (hsum : cfg.SegmentMin + cfg.SegmentMax < 9223372036854775808)
    (hr : r.Uniform) :
    (cfg.CountMax - cfg.CountMin < 9223372036854775807 → ∃ st, plan cfg env r = .ok st) ∧
    ∀ st, plan cfg env r = .ok st →
      ∀ q ∈ st.segRequests, ∃ D, env.GetVideoDuration q.SrcPath = .ok D ∧
        0 ≤ q.Start ∧ 0 < q.Duration ∧ q.Start + q.Duration ≤ D := by
  constructor
  · intro hfit
    exact planLoop_isOk cfg env (by rw [countArg_eq cfg hcount hfit]; omega) cfg.Files _
  · intro st hst
    refine planLoop_inv cfg env _ ?_ cfg.Files _ st hr hst (by simp)
    intro s s1 file hs hfile new hnew q hq
    obtain ⟨_, new1, hnew1, hcase⟩ := planFile_ok cfg env s s1 file hfile
    have hsame : new1 = new := List.append_cancel_left (hnew1.symm.trans hnew)
    subst hsame
    rcases hcase with hnil | ⟨D, n, r1, chosen, r2, hD, hlong, hr1, hch, hmap⟩
    · subst hnil; cases hq
    · obtain ⟨c, hc, hsrc, hstart, hdur⟩ := mem_of_map_core _ _ _ hmap q hq
      have hv := chooseSegments_valid cfg D n r1 r2 chosen hoff hmin hseg hsum
        (uniform_of_floats _ _ hr1 hs) hlong hch c hc
      refine ⟨D, by rw [hsrc]; exact hD, ?_, ?_, ?_⟩
      · rw [hstart]; exact hv.1
      · rw [hdur]; exact hv.2.1
      · rw [hstart, hdur]; exact hv.2.2

/-- The specification's sequential example satisfies the hypotheses of C1 as amended:
planning returns five requests, each inside the source. -/
theorem plan_segments_within_source_witness :
    ∃ st, plan cfgSeq (sampleEnv 600) (sampleRng (1 / 2)) = .ok st ∧
      st.segRequests.length = 5 ∧
      ∀ q ∈ st.segRequests, ∃ D, (sampleEnv 600).GetVideoDuration q.SrcPath = .ok D ∧
        0 ≤ q.Start ∧ 0 < q.Duration ∧ q.Start + q.Duration ≤ D := by
  have h := plan_segments_within_source cfgSeq (sampleEnv 600) (sampleRng (1 / 2))
    (by decide) (by decide) (by decide) (by decide) (by decide)
    (fun _ => by norm_num [sampleRng])
  obtain ⟨st, hst⟩ := h.1 (by decide)
  refine ⟨st, hst, ?_, h.2 st hst⟩
  have hreq := congrArg (fun x => match x with
    | Except.ok s => s.segRequests.length
    | Except.error _ => 0) hst
  norm_num [plan, planLoop, planFile, sampleEnv, cfgSeq, minStartOffset, Rng.Intn, sampleRng,
    chooseSegments, seqLoop, seqSegLen, appendRequests, countArg, drawnCount, wrap64] at hreq
  exact hreq.symm

/-- C1 as stated fails: with `StartOffsetMin = -1` a request starts at `-60`, with
`SegmentMin = SegmentMax = 0` a request has duration `0`, and with
`SegmentMin = SegmentMax = 2^62` the sum overflows and a request has duration `-2^62`. -/
theorem plan_segments_within_source_counterexample :
    (cfgNegOffset.CountMin ≤ cfgNegOffset.CountMax ∧
      cfgNegOffset.SegmentMin ≤ cfgNegOffset.SegmentMax ∧
      ∃ st, plan cfgNegOffset (sampleEnv 100) (sampleRng 0) = .ok st ∧
        ∃ q ∈ st.segRequests, ¬ 0 ≤ q.Start) ∧
    (cfgZeroLen.CountMin ≤ cfgZeroLen.CountMax ∧
      cfgZeroLen.SegmentMin ≤ cfgZeroLen.SegmentMax ∧
      ∃ st, plan cfgZeroLen (sampleEnv 100) (sampleRng 0) = .ok st ∧
        ∃ q ∈ st.segRequests, ¬ 0 < q.Duration) ∧
    (cfgBigSeg.CountMin ≤ cfgBigSeg.CountMax ∧
      cfgBigSeg.SegmentMin ≤ cfgBigSeg.SegmentMax ∧ cfgBigSeg.InRange ∧
      0 < cfgBigSeg.SegmentMin ∧ 0 ≤ cfgBigSeg.StartOffsetMin ∧
      ∃ st, plan cfgBigSeg (sampleEnv 100) (sampleRng 0) = .ok st ∧
        ∃ q ∈ st.segRequests, q.Duration = -4611686018427387904 ∧ ¬ 0 < q.Duration) := by
  refine ⟨⟨by decide, by decide, ?_⟩, ⟨by decide, by decide, ?_⟩,
    ⟨by decide, by decide, by unfold Config.InRange IsInt64; decide, by decide, by decide, ?_⟩⟩
  · norm_num [plan, planLoop, planFile, sampleEnv, cfgNegOffset, minStartOffset, Rng.Intn,
      sampleRng, chooseSegments, seqLoop, seqSegLen, appendRequests, countArg, drawnCount,
      wrap64]
  · norm_num [plan, planLoop, planFile, sampleEnv, cfgZeroLen, minStartOffset, Rng.Intn,
      sampleRng, chooseSegments, seqLoop, seqSegLen, appendRequests, countArg, drawnCount,
      wrap64]
  · norm_num [plan, planLoop, planFile, sampleEnv, cfgBigSeg, minStartOffset, Rng.Intn,
      sampleRng, chooseSegments, seqLoop, seqSegLen, appendRequests, countArg, drawnCount,
      wrap64]

theorem map_core_range (new : List SegmentRequest) (k : Nat) (f : Nat → String × ℚ × ℚ)
    (h : new.map SegmentRequest.core = (List.range k).map f) :
    new.length = k ∧ ∀ (i : Nat) (hi : i < new.length), new[i].core = f i := by
  have hlen : new.length = k := by
    have := congrArg List.length h
    simpa using this
  refine ⟨hlen, ?_⟩
  intro i hi
  have h1 : (new.map SegmentRequest.core)[i]? = ((List.range k).map f)[i]? := by rw [h]
  rw [List.getElem?_map, List.getElem?_map, List.getElem?_eq_getElem hi,
    List.getElem?_range (hlen ▸ hi)] at h1
  simpa using h1

/-- What `planFile` does in sequential mode for a file that is not skipped. -/
theorem seqPlan_spec (cfg : Config) (env : Env) (st : PlanState) (file : String)
    (D : ℚ) (d : Int) (r1 : Rng)
    (hmode : cfg.RandomTime = false)
    (hsum : IsInt64 (cfg.SegmentMin + cfg.SegmentMax))
    (hprobe : env.GetVideoDuration file = .ok D)
    (hlong : ¬ D ≤ (cfg.StartOffsetMin : ℚ) * 60 + 1)
    (hdraw : st.rng.Intn (countArg cfg) = .ok (d, r1)) :
    ∃ (k : Nat) (new : List SegmentRequest) (st1 : PlanState),
      planFile cfg env st file = .ok st1 ∧
      st1.segRequests = st.segRequests ++ new ∧
      k ≤ (drawnCount cfg d).toNat ∧
      (cfg.StartOffsetMin : ℚ) * 60 + (k : ℚ) * (((cfg.SegmentMin : ℚ) + cfg.SegmentMax) / 2) ≤ D ∧
      (∀ j : Nat, j ≤ (drawnCount cfg d).toNat →
        (cfg.StartOffsetMin : ℚ) * 60 + (j : ℚ) * (((cfg.SegmentMin : ℚ) + cfg.SegmentMax) / 2) ≤ D →
          j ≤ k) ∧
      new.map SegmentRequest.core = (List.range k).map
        (fun i : Nat => (file,
          (cfg.StartOffsetMin : ℚ) * 60 + (i : ℚ) * (((cfg.SegmentMin : ℚ) + cfg.SegmentMax) / 2),
          ((cfg.SegmentMin : ℚ) + cfg.SegmentMax) / 2)) ∧
      (∀ (i : Nat) (h : i + 1 < new.length),
        new[i + 1].Start = new[i].Start + new[i].Duration) ∧
      (∀ (i j : Nat) (hi : i < new.length) (hj : j < new.length), i ≠ j →
        ∀ t : ℚ, ¬ (new[i].Start ≤ t ∧ t < new[i].Start + new[i].Duration ∧
          new[j].Start ≤ t ∧ t < new[j].Start + new[j].Duration)) := by
  have hL : seqSegLen cfg = ((cfg.SegmentMin : ℚ) + cfg.SegmentMax) / 2 := by
    unfold seqSegLen
    rw [wrap64_eq _ hsum]
    push_cast
    ring
  have hM : minStartOffset cfg = (cfg.StartOffsetMin : ℚ) * 60 := rfl
  rw [← hM] at hlong ⊢
  rw [← hL]
  obtain ⟨k, hk, heq, hfit, hmax⟩ := seqLoop_spec cfg D (drawnCount cfg d).toNat
    (minStartOffset cfg) [] (by linarith [not_le.mp hlong])
  obtain ⟨new, hn1, hn2⟩ := appendRequests_spec env file
    (seqLoop cfg D (drawnCount cfg d).toNat (minStartOffset cfg) []) 0 st.clock st.segRequests
  have hplan : planFile cfg env st file =
      .ok { st with rng := r1,
                    clock := (appendRequests env file
                      (seqLoop cfg D (drawnCount cfg d).toNat (minStartOffset cfg) [])
                      0 st.clock st.segRequests).2,
                    segRequests := (appendRequests env file
                      (seqLoop cfg D (drawnCount cfg d).toNat (minStartOffset cfg) [])
                      0 st.clock st.segRequests).1 } := by
    unfold planFile
    rw [hprobe]
    simp only [hlong, if_false, hdraw, chooseSegments, hmode, Bool.not_false, if_true]
  have hcore : new.map SegmentRequest.core = (List.range k).map
      (fun i : Nat => (file, minStartOffset cfg + (i : ℚ) * seqSegLen cfg, seqSegLen cfg)) := by
    rw [hn2, heq, List.nil_append, List.map_map]
    rfl
  obtain ⟨hlen, hget⟩ := map_core_range new k _ hcore
  have hstart : ∀ (i : Nat) (hi : i < new.length),
      new[i].Start = minStartOffset cfg + (i : ℚ) * seqSegLen cfg ∧
        new[i].Duration = seqSegLen cfg := by
    intro i hi
    have := hget i hi
    simp only [SegmentRequest.core, Prod.mk.injEq] at this
    exact ⟨this.2.1, this.2.2⟩
  refine ⟨k, new, _, hplan, hn1, hk, hfit, hmax, hcore, ?_, ?_⟩
  · intro i h
    rw [(hstart (i + 1) h).1, (hstart i (by omega)).1, (hstart i (by omega)).2]
    push_cast
    ring
  · intro i j hi hj hne t ht
    obtain ⟨h1, h2, h3, h4⟩ := ht
    rw [(hstart i hi).1] at h1 h2
    rw [(hstart i hi).2] at h2
    rw [(hstart j hj).1] at h3 h4
    rw [(hstart j hj).2] at h4
    have hL : 0 < seqSegLen cfg := by linarith
    rcases Nat.lt_or_gt_of_ne hne with hlt | hgt
    · have : (i : ℚ) + 1 ≤ (j : ℚ) := by exact_mod_cast hlt
      nlinarith [mul_le_mul_of_nonneg_right this (le_of_lt hL)]
    · have : (j : ℚ) + 1 ≤ (i : ℚ) := by exact_mod_cast hgt
      nlinarith [mul_le_mul_of_nonneg_right this (le_of_lt hL)]

/-- C2 (amended): in sequential mode, when `SegmentMin + SegmentMax` does not overflow, a
file that is not skipped gets exactly `k` requests, `k` the largest integer in `[0, n]`
with `minStartOffset + k*segLen ≤ duration`, where `segLen = (SegmentMin+SegmentMax)/2`,
`minStartOffset = StartOffsetMin*60` and `n` is the drawn count; the `i`-th starts at
`minStartOffset + i*segLen` and lasts `segLen`, so each begins where the previous one
ends and no two overlap. -/
theorem sequential_plan_contiguous (cfg : Config) (env : Env) (st : PlanState) (file : String)
    (D : ℚ) (d : Int) (r1 : Rng)
    (hmode : cfg.RandomTime = false)
    (hsum : IsInt64 (cfg.SegmentMin + cfg.SegmentMax))
    (hprobe : env.GetVideoDuration file = .ok D)
    (hlong : ¬ D ≤ (cfg.StartOffsetMin : ℚ) * 60 + 1)
    (hdraw : st.rng.Intn (wrap64 (wrap64 (cfg.CountMax - cfg.CountMin) + 1)) = .ok (d, r1)) :
    ∃ (k : Nat) (new : List SegmentRequest) (st1 : PlanState),
      planFile cfg env st file = .ok st1 ∧
      st1.segRequests = st.segRequests ++ new ∧
      k ≤ (wrap64 (d + cfg.CountMin)).toNat ∧
      (cfg.StartOffsetMin : ℚ) * 60 + (k : ℚ) * (((cfg.SegmentMin : ℚ) + cfg.SegmentMax) / 2) ≤ D ∧
      (∀ j : Nat, j ≤ (wrap64 (d + cfg.CountMin)).toNat →
        (cfg.StartOffsetMin : ℚ) * 60 + (j : ℚ) * (((cfg.SegmentMin : ℚ) + cfg.SegmentMax) / 2) ≤ D →
          j ≤ k) ∧
      new.map SegmentRequest.core = (List.range k).map
        (fun i : Nat => (file,
          (cfg.StartOffsetMin : ℚ) * 60 + (i : ℚ) * (((cfg.SegmentMin : ℚ) + cfg.SegmentMax) / 2),
          ((cfg.SegmentMin : ℚ) + cfg.SegmentMax) / 2)) ∧
      (∀ (i : Nat) (h : i + 1 < new.length),
        new[i + 1].Start = new[i].Start + new[i].Duration) ∧
      (∀ (i j : Nat) (hi : i < new.length) (hj : j < new.length), i ≠ j →
        ∀ t : ℚ, ¬ (new[i].Start ≤ t ∧ t < new[i].Start + new[i].Duration ∧
          new[j].Start ≤ t ∧ t < new[j].Start + new[j].Duration)) :=
  seqPlan_spec cfg env st file D d r1 hmode hsum hprobe hlong hdraw

/-- The specification's sequential example: duration 600, offset 1 min, 60 s segments,
5 per file give the starts 60, 120, 180, 240, 300. -/
theorem sequential_plan_contiguous_witness :
    ∃ st1, planFile cfgSeq (sampleEnv 600) (samplePlanState 0) "a.mp4" = .ok st1 ∧
      st1.segRequests.map SegmentRequest.core =
        [("a.mp4", 60, 60), ("a.mp4", 120, 60), ("a.mp4", 180, 60), ("a.mp4", 240, 60),
          ("a.mp4", 300, 60)] := by
  obtain ⟨k, new, st1, hplan, hnew, hk, _, hmax, hcore, _, _⟩ :=
    sequential_plan_contiguous cfgSeq (sampleEnv 600) (samplePlanState 0) "a.mp4" 600 0
      ⟨fun _ => 0, fun _ => 0, 1, 0⟩ rfl (by unfold IsInt64; decide) rfl
      (by norm_num [cfgSeq]) (by rfl)
  have hn5 : (wrap64 (0 + cfgSeq.CountMin)).toNat = 5 := by decide
  have hk5 : k = 5 := by
    have h5 := hmax 5 (by rw [hn5]) (by norm_num [cfgSeq])
    rw [hn5] at hk
    omega
  subst hk5
  refine ⟨st1, hplan, ?_⟩
  rw [hnew, List.map_append, hcore]
  norm_num [samplePlanState, List.range_succ, cfgSeq]

/-- C2 as stated fails: with `SegmentMin = SegmentMax = 2^62` the sum overflows, so the
code's `segLen` is `-2^62` and one request of that duration is planned, where
`(SegmentMin+SegmentMax)/2 = 2^62` leaves room for none in a source of 100 s. -/
theorem sequential_plan_contiguous_counterexample :
    cfgBigSeg.RandomTime = false ∧ cfgBigSeg.InRange ∧
    (sampleEnv 100).GetVideoDuration "a.mp4" = .ok 100 ∧
    ¬ (100 : ℚ) ≤ (cfgBigSeg.StartOffsetMin : ℚ) * 60 + 1 ∧
    ¬ ((cfgBigSeg.StartOffsetMin : ℚ) * 60 +
      1 * (((cfgBigSeg.SegmentMin : ℚ) + cfgBigSeg.SegmentMax) / 2) ≤ 100) ∧
    ∃ st1, planFile cfgBigSeg (sampleEnv 100) (samplePlanState 0) "a.mp4" = .ok st1 ∧
      st1.segRequests.map SegmentRequest.core = [("a.mp4", 0, -4611686018427387904)] := by
  refine ⟨rfl, by unfold Config.InRange IsInt64; decide, rfl, by norm_num [cfgBigSeg],
    by norm_num [cfgBigSeg], ?_⟩
  norm_num [planFile, sampleEnv, cfgBigSeg, minStartOffset, Rng.Intn, sampleRng,
    samplePlanState, chooseSegments, seqLoop, seqSegLen, appendRequests, countArg, drawnCount,
    wrap64, SegmentRequest.core]

/-- C3 (amended): in randomized mode, when `SegmentMax - SegmentMin` does not overflow,
every produced request has its duration in `[SegmentMin, SegmentMax]` and its start in
`[minStartOffset, duration - its length]`, where `minStartOffset = StartOffsetMin*60`. -/
theorem random_plan_bounds (cfg : Config) (env : Env) (r : Rng)
    (hmode : cfg.RandomTime = true) (hseg : cfg.SegmentMin ≤ cfg.SegmentMax)
    (hdiff : cfg.SegmentMax - cfg.SegmentMin < 9223372036854775808) (hr : r.Uniform)
    (st : PlanState) (hplan : plan cfg env r = .ok st)
    (q : SegmentRequest) (hq : q ∈ st.segRequests) :
    ∃ D, env.GetVideoDuration q.SrcPath = .ok D ∧
      (cfg.SegmentMin : ℚ) ≤ q.Duration ∧ q.Duration ≤ (cfg.SegmentMax : ℚ) ∧
      (cfg.StartOffsetMin : ℚ) * 60 ≤ q.Start ∧ q.Start ≤ D - q.Duration := by
  revert q
  refine planLoop_inv cfg env _ ?_ cfg.Files _ st hr hplan (by simp)
  intro s s1 file hs hfile new hnew q hq
  obtain ⟨_, new1, hnew1, hcase⟩ := planFile_ok cfg env s s1 file hfile
  have hsame : new1 = new := List.append_cancel_left (hnew1.symm.trans hnew)
  subst hsame
  rcases hcase with hnil | ⟨D, n, r1, chosen, r2, hD, hlong, hr1, hch, hmap⟩
  · subst hnil; cases hq
  · obtain ⟨c, hc, hsrc, hstart, hdur⟩ := mem_of_map_core _ _ _ hmap q hq
    have hch' : (randLoop cfg D n.toNat r1 []) = (chosen, r2) := by
      unfold chooseSegments at hch
      rw [hmode] at hch
      simp only [Bool.not_true, Bool.false_eq_true, if_false] at hch
      split at hch
      · cases hch
      · injection hch
    have hb := randLoop_bounds cfg D hseg hdiff n.toNat r1 [] (uniform_of_floats _ _ hr1 hs)
      (by simp) c (by rw [hch']; exact hc)
    refine ⟨D, by rw [hsrc]; exact hD, ?_⟩
    rw [hstart, hdur]
    exact hb

/-- The specification's randomized example: duration 600, offset 0, 30 s segments give
requests of duration 30 starting in `[0, 570]`. -/
theorem random_plan_bounds_witness :
    ∃ st q, plan cfgRand (sampleEnv 600) (sampleRng (1 / 2)) = .ok st ∧
      q ∈ st.segRequests ∧ st.segRequests.length = 3 ∧
      q.Duration = 30 ∧ 0 ≤ q.Start ∧ q.Start ≤ 570 := by
  obtain ⟨st, hst⟩ := planLoop_isOk cfgRand (sampleEnv 600) (by decide) cfgRand.Files
    ⟨sampleRng (1 / 2), 0,
      [.log ("Starting processing " ++ toString cfgRand.Files.length ++ " files...")], []⟩
  have hreq := congrArg (fun x => match x with
    | Except.ok s => s.segRequests.map SegmentRequest.core
    | Except.error _ => []) hst
  norm_num [planLoop, planFile, sampleEnv, cfgRand, minStartOffset, Rng.Intn, sampleRng,
    chooseSegments, randLoop, randSegLen, randStart, Rng.Float64, appendRequests,
    SegmentRequest.core, countArg, drawnCount, wrap64] at hreq
  have hlen : st.segRequests.length = 3 := by
    have := congrArg List.length hreq
    simpa using this.symm
  match hs : st.segRequests, hlen with
  | [q, _, _], _ =>
    obtain ⟨D, hD, h1, h2, h3, h4⟩ := random_plan_bounds cfgRand (sampleEnv 600)
      (sampleRng (1 / 2)) rfl (by decide) (by decide) (fun _ => by norm_num [sampleRng]) st hst q
      (by rw [hs]; exact List.mem_cons_self _ _)
    have hD600 : D = 600 := by
      simp only [sampleEnv] at hD
      injection hD with hD
      exact hD.symm
    subst hD600
    refine ⟨st, q, hst, by rw [hs]; exact List.mem_cons_self _ _, by rw [hs]; rfl, ?_, ?_, ?_⟩
    · have e1 : ((cfgRand.SegmentMin : Int) : ℚ) = 30 := by norm_num [cfgRand]
      have e2 : ((cfgRand.SegmentMax : Int) : ℚ) = 30 := by norm_num [cfgRand]
      rw [e1] at h1; rw [e2] at h2
      exact le_antisymm h2 h1
    · have : ((cfgRand.StartOffsetMin : Int) : ℚ) * 60 = 0 := by norm_num [cfgRand]
      rw [this] at h3; exact h3
    · have e1 : ((cfgRand.SegmentMin : Int) : ℚ) = 30 := by norm_num [cfgRand]
      rw [e1] at h1
      linarith

/-- C3 as stated fails: with `SegmentMin = -9223372036854775000` and `SegmentMax = 1000`
the difference overflows to a negative number, and for the draw `1/2` the planned
request is shorter than `SegmentMin`. -/
theorem random_plan_bounds_counterexample :
    cfgWideSeg.RandomTime = true ∧ cfgWideSeg.SegmentMin ≤ cfgWideSeg.SegmentMax ∧
    cfgWideSeg.InRange ∧ (sampleRng (1 / 2)).Uniform ∧
    ∃ st, plan cfgWideSeg (sampleEnv 100000) (sampleRng (1 / 2)) = .ok st ∧
      ∃ q ∈ st.segRequests, q.Duration = -13835058055282162808 ∧
        ¬ (cfgWideSeg.SegmentMin : ℚ) ≤ q.Duration := by
  refine ⟨rfl, by decide, by unfold Config.InRange IsInt64; decide,
    fun _ => by norm_num [sampleRng], ?_⟩
  norm_num [plan, planLoop, planFile, sampleEnv, cfgWideSeg, minStartOffset, Rng.Intn,
    sampleRng, chooseSegments, randLoop, randSegLen, randStart, Rng.Float64, appendRequests,
    countArg, drawnCount, wrap64]

/-- What `planFile` does in randomized mode for a file that passes the upfront tests. -/
theorem randPlan_spec (cfg : Config) (env : Env) (st : PlanState) (file : String)
    (D : ℚ) (d : Int) (r1 : Rng)
    (hmode : cfg.RandomTime = true) (hrange : cfg.InRange)
    (hseg : cfg.SegmentMin ≤ cfg.SegmentMax) (hcount : cfg.CountMin ≤ cfg.CountMax)
    (hr : st.rng.Uniform)
    (hprobe : env.GetVideoDuration file = .ok D)
    (hlong : ¬ D ≤ (cfg.StartOffsetMin : ℚ) * 60 + 1)
    (hroom : ¬ D - (cfg.StartOffsetMin : ℚ) * 60 < (cfg.SegmentMax : ℚ))
    (hdraw : st.rng.Intn (countArg cfg) = .ok (d, r1)) :
    drawnCount cfg d = d + cfg.CountMin ∧
    cfg.CountMin ≤ drawnCount cfg d ∧ drawnCount cfg d ≤ cfg.CountMax ∧
    (∀ u : ℚ, 0 ≤ u → u < 1 → ¬ D - (cfg.StartOffsetMin : ℚ) * 60 < randSegLen cfg u) ∧
    ∃ (new : List SegmentRequest) (st1 : PlanState),
      planFile cfg env st file = .ok st1 ∧
      st1.segRequests = st.segRequests ++ new ∧
      (new.length : Int) = max (drawnCount cfg d) 0 := by
  have hM : minStartOffset cfg = (cfg.StartOffsetMin : ℚ) * 60 := rfl
  rw [← hM] at hlong hroom ⊢
  obtain ⟨_, hd0, hd1, hfl⟩ := Rng.Intn_ok _ _ _ _ hdraw
  obtain ⟨e1, e2, e3⟩ := drawnCount_range cfg hrange hcount d hd0 hd1
  refine ⟨e1, e2, e3, ?_, ?_⟩
  · intro u h0 h1 hlt
    exact hroom (lt_of_lt_of_le hlt (randSegLen_le_max cfg hseg u h0 h1))
  · obtain ⟨new, hn1, hn2⟩ := appendRequests_spec env file
      (randLoop cfg D (drawnCount cfg d).toNat r1 []).1 0 st.clock st.segRequests
    have hplan : planFile cfg env st file =
        .ok { st with rng := (randLoop cfg D (drawnCount cfg d).toNat r1 []).2,
                      clock := (appendRequests env file
                        (randLoop cfg D (drawnCount cfg d).toNat r1 []).1
                        0 st.clock st.segRequests).2,
                      segRequests := (appendRequests env file
                        (randLoop cfg D (drawnCount cfg d).toNat r1 []).1
                        0 st.clock st.segRequests).1 } := by
      unfold planFile
      rw [hprobe]
      simp only [hlong, if_false, hdraw, chooseSegments, hmode, Bool.not_true,
        Bool.false_eq_true, hroom]
    refine ⟨new, _, hplan, hn1, ?_⟩
    have hlen := randLoop_length cfg D hseg hroom (drawnCount cfg d).toNat r1 []
      (uniform_of_floats _ _ hfl hr)
    have hl2 := congrArg List.length hn2
    simp only [List.length_map] at hl2
    rw [hl2, hlen, List.length_nil, Nat.zero_add, Int.toNat_eq_max]

/-- C10 (amended): in randomized mode, with `CountMin ≤ CountMax`, a file that passes the
two upfront tests never meets the in-loop early stop, and gets exactly `max n 0`
requests, `n` the drawn count, which lies in `[CountMin, CountMax]`. -/
theorem random_plan_never_breaks (cfg : Config) (env : Env) (st : PlanState) (file : String)
    (D : ℚ) (d : Int) (r1 : Rng)
    (hmode : cfg.RandomTime = true) (hrange : cfg.InRange)
    (hseg : cfg.SegmentMin ≤ cfg.SegmentMax) (hcount : cfg.CountMin ≤ cfg.CountMax)
    (hr : st.rng.Uniform)
    (hprobe : env.GetVideoDuration file = .ok D)
    (hlong : ¬ D ≤ (cfg.StartOffsetMin : ℚ) * 60 + 1)
    (hroom : ¬ D - (cfg.StartOffsetMin : ℚ) * 60 < (cfg.SegmentMax : ℚ))
    (hdraw : st.rng.Intn (wrap64 (wrap64 (cfg.CountMax - cfg.CountMin) + 1)) = .ok (d, r1)) :
    wrap64 (d + cfg.CountMin) = d + cfg.CountMin ∧
    cfg.CountMin ≤ wrap64 (d + cfg.CountMin) ∧ wrap64 (d + cfg.CountMin) ≤ cfg.CountMax ∧
    (∀ u : ℚ, 0 ≤ u → u < 1 → ¬ D - (cfg.StartOffsetMin : ℚ) * 60 < u * ((wrap64 (cfg.SegmentMax - cfg.SegmentMin) : Int) : ℚ) + (cfg.SegmentMin : ℚ)) ∧
    ∃ (new : List SegmentRequest) (st1 : PlanState),
      planFile cfg env st file = .ok st1 ∧
      st1.segRequests = st.segRequests ++ new ∧
      (new.length : Int) = max (wrap64 (d + cfg.CountMin)) 0 :=
  randPlan_spec cfg env st file D d r1 hmode hrange hseg hcount hr hprobe hlong hroom hdraw

/-- In the specification's randomized example the drawn count is 3 and 3 requests are made. -/
theorem random_plan_never_breaks_witness :
    wrap64 (0 + cfgRand.CountMin) = 3 ∧
    ∃ (new : List SegmentRequest) (st1 : PlanState),
      planFile cfgRand (sampleEnv 600) (samplePlanState (1 / 2)) "a.mp4" = .ok st1 ∧
      st1.segRequests = (samplePlanState (1 / 2)).segRequests ++ new ∧
      (new.length : Int) = 3 :=
  ⟨by decide,
    (random_plan_never_breaks cfgRand (sampleEnv 600) (samplePlanState (1 / 2)) "a.mp4" 600 0
      ⟨fun _ => 0, fun _ => 1 / 2, 1, 0⟩ rfl (by unfold Config.InRange IsInt64; decide)
      (by decide) (by decide)
      (fun _ => by norm_num [samplePlanState, sampleRng]) rfl
      (by norm_num [cfgRand]) (by norm_num [cfgRand])
      (by rfl)).2.2.2.2⟩

/-- C10 as stated fails: with `CountMin = CountMax = -1` the drawn count is `-1`, the loop
body never runs and the file gets no request, not `n` of them. -/
theorem random_plan_never_breaks_counterexample :
    cfgNegCount.RandomTime = true ∧ cfgNegCount.SegmentMin ≤ cfgNegCount.SegmentMax ∧
    cfgNegCount.InRange ∧
    (sampleEnv 600).GetVideoDuration "a.mp4" = .ok 600 ∧
    ¬ (600 : ℚ) ≤ (cfgNegCount.StartOffsetMin : ℚ) * 60 + 1 ∧
    ¬ (600 : ℚ) - (cfgNegCount.StartOffsetMin : ℚ) * 60 < (cfgNegCount.SegmentMax : ℚ) ∧
    (samplePlanState (1 / 2)).rng.Intn (countArg cfgNegCount)
      = .ok (0, ⟨fun _ => 0, fun _ => 1 / 2, 1, 0⟩) ∧
    drawnCount cfgNegCount 0 = -1 ∧
    cfgNegCount.CountMin ≤ drawnCount cfgNegCount 0 ∧
    drawnCount cfgNegCount 0 ≤ cfgNegCount.CountMax ∧
    ∃ st1, planFile cfgNegCount (sampleEnv 600) (samplePlanState (1 / 2)) "a.mp4" = .ok st1 ∧
      st1.segRequests = [] ∧ (st1.segRequests.length : Int) ≠ drawnCount cfgNegCount 0 := by
  refine ⟨rfl, by decide, by unfold Config.InRange IsInt64; decide, rfl,
    by norm_num [cfgNegCount], by norm_num [cfgNegCount], by rfl, by decide, by decide,
    by decide, ?_⟩
  norm_num [planFile, sampleEnv, cfgNegCount, minStartOffset, Rng.Intn, sampleRng,
    samplePlanState, chooseSegments, randLoop, appendRequests, countArg, drawnCount, wrap64]

/-- C4 at the failing input: in randomized mode a file without room for one
maximal segment is dropped with no request and no log line. -/
theorem planFile_silent_skip :
    ∃ st1, planFile cfgNoRoom (sampleEnv 100) (samplePlanState 0) "a.mp4" = .ok st1 ∧
      st1.segRequests = [] ∧ st1.events = (samplePlanState 0).events ∧
      (sampleEnv 100).GetVideoDuration "a.mp4" = .ok 100 ∧
      ¬ (100 : ℚ) ≤ minStartOffset cfgNoRoom + 1 ∧
      (100 : ℚ) - minStartOffset cfgNoRoom < (cfgNoRoom.SegmentMax : ℚ) := by
  norm_num [planFile, sampleEnv, cfgNoRoom, minStartOffset, Rng.Intn, sampleRng,
    samplePlanState, chooseSegments, countArg, drawnCount, wrap64]

/-! ## The orchestrator: lemmas -/

theorem countP_set_getElem? (p : TaskPc → Bool) (l : List TaskPc) (i : Nat) (a b : TaskPc)
    (h : l[i]? = some a) :
    (p a).toNat ≤ l.countP p ∧
    (l.set i b).countP p + (p a).toNat = l.countP p + (p b).toNat := by
  obtain ⟨hi, ha⟩ := List.getElem?_eq_some.mp h
  have h1 := List.countP_set p l i b hi
  have h2 := List.boole_getElem_le_countP p l i hi
  rw [ha] at h1 h2
  cases hpa : p a <;> cases hpb : p b <;>
    simp only [hpa, hpb, Bool.false_eq_true, if_true, if_false, Bool.toNat_true,
      Bool.toNat_false] at h1 h2 ⊢ <;> omega

theorem exec_inv (cfg : Config) (env : Env) (reqs : List SegmentRequest) (I : OState → Prop)
    (hstep : ∀ s a s1, I s → step cfg env reqs s a = some s1 → I s1) :
    ∀ (acts : List Action) (s s1 : OState), I s → exec cfg env reqs s acts = some s1 → I s1 := by
  intro acts
  induction acts with
  | nil =>
    intro s s1 hs h
    simp only [exec] at h
    injection h with h; subst h; exact hs
  | cons a rest ih =>
    intro s s1 hs h
    simp only [exec] at h
    split at h
    · rename_i s2 h2
      exact ih s2 s1 (hstep s a s2 hs h2) h
    · cases h

theorem mainStep_tasks (cfg : Config) (reqs : List SegmentRequest) (s s1 : OState)
    (h : mainStep cfg reqs s = some s1) :
    s1.limit = s.limit ∧ holders s1 = holders s ∧ inFlight s1 = inFlight s := by
  unfold mainStep at h
  split at h
  · split at h
    · split at h <;> (injection h with h; subst h) <;> simp [holders, inFlight, TaskPc.holding, TaskPc.running]
    · injection h with h; subst h; simp [holders, inFlight]
  · split at h
    · simp only at h
      split at h <;> (injection h with h; subst h) <;> simp [holders, inFlight]
    · cases h
  · cases h
  · cases h

theorem SlotInv_step (cfg : Config) (env : Env) (reqs : List SegmentRequest) (s : OState)
    (a : Action) (s1 : OState) (hs : SlotInv s) (h : step cfg env reqs s a = some s1) :
    SlotInv s1 := by
  obtain ⟨h1, h2⟩ := hs
  cases a with
  | stop =>
    simp only [step] at h
    injection h with h; subst h
    exact ⟨h1, h2⟩
  | main =>
    simp only [step] at h
    obtain ⟨e1, e2, e3⟩ := mainStep_tasks cfg reqs s s1 h
    exact ⟨by rw [e2, e1]; exact h1, by rw [e1]; exact h2⟩
  | acquire i =>
    simp only [step] at h
    split at h
    · rename_i req ht hr
      split at h
      · rename_i hlt
        injection h with h; subst h
        have c1 := countP_set_getElem? TaskPc.holding s.tasks i .queued .inflight ht
        have c2 := countP_set_getElem? TaskPc.running s.tasks i .queued .inflight ht
        simp only [TaskPc.holding, TaskPc.running, Bool.toNat_true, Bool.toNat_false] at c1 c2
        simp only [SlotInv, holders, inFlight] at *
        omega
      · cases h
    · cases h
  | extractReturn i w =>
    simp only [step] at h
    split at h
    · rename_i req ht hr
      injection h with h; subst h
      have c1 := countP_set_getElem? TaskPc.holding s.tasks i .inflight (.returned (RunFFmpegExtract w).2) ht
      have c2 := countP_set_getElem? TaskPc.running s.tasks i .inflight (.returned (RunFFmpegExtract w).2) ht
      simp only [TaskPc.holding, TaskPc.running, Bool.toNat_true, Bool.toNat_false] at c1 c2
      simp only [SlotInv, holders, inFlight] at *
      omega
    · cases h
  | report i =>
    simp only [step] at h
    split at h
    · rename_i err req ht hr
      injection h with h; subst h
      have c1 := countP_set_getElem? TaskPc.holding s.tasks i (.returned err) .reported ht
      have c2 := countP_set_getElem? TaskPc.running s.tasks i (.returned err) .reported ht
      simp only [TaskPc.holding, TaskPc.running, Bool.toNat_true, Bool.toNat_false] at c1 c2
      simp only [SlotInv, holders, inFlight] at *
      omega
    · cases h
  | release i =>
    simp only [step] at h
    split at h
    · rename_i ht
      injection h with h; subst h
      have c1 := countP_set_getElem? TaskPc.holding s.tasks i .reported .done ht
      have c2 := countP_set_getElem? TaskPc.running s.tasks i .reported .done ht
      simp only [TaskPc.holding, TaskPc.running, Bool.toNat_true, Bool.toNat_false] at c1 c2
      simp only [SlotInv, holders, inFlight] at *
      omega
    · cases h
  | concatReturn w =>
    simp only [step] at h
    split at h
    · split at h <;> (injection h with h; subst h) <;> exact ⟨h1, h2⟩
    · cases h

theorem inFlight_le_holders (s : OState) : inFlight s ≤ holders s := by
  unfold inFlight holders
  apply List.countP_mono_left
  intro t _ ht
  cases t <;> simp_all [TaskPc.running, TaskPc.holding]

theorem controlOf_append (a b : List Event) : controlOf (a ++ b) = controlOf a ++ controlOf b :=
  List.filter_append a b

theorem progressOf_append (a b : List Event) :
    progressOf (a ++ b) = progressOf a ++ progressOf b :=
  List.filterMap_append a b _

theorem succeeded_append (a b : List Event) : succeeded (a ++ b) = (succeeded a || succeeded b) :=
  List.any_append

theorem submitsUpTo_succ (reqs : List SegmentRequest) (k : Nat) (req : SegmentRequest)
    (h : reqs[k]? = some req) : submitsUpTo reqs (k + 1) = submitsUpTo reqs k ++ [.submit k req] := by
  simp [submitsUpTo, List.range_succ, List.filterMap_append, h]

theorem not_allDone_of_getElem? (tasks : List TaskPc) (i : Nat) (t : TaskPc)
    (h : tasks[i]? = some t) (ht : t ≠ .done) : ¬ allDone tasks := by
  intro hall
  obtain ⟨hi, ha⟩ := List.getElem?_eq_some.mp h
  exact ht (ha ▸ hall _ (List.getElem_mem hi))

theorem progressOf_removes (paths : List String) : progressOf (paths.map Event.remove) = [] := by
  induction paths with
  | nil => rfl
  | cons p rest ih => simp [progressOf, Event.pct]

theorem extract_not_mem_removes (paths : List String) (i : Nat) (r : SegmentRequest) (g : Bool) :
    Event.extract i r g ∉ paths.map Event.remove := by
  simp

theorem extractLog_ne_extract (env : Env) (req : SegmentRequest) (err : Option String)
    (i : Nat) (r : SegmentRequest) (g : Bool) : Event.extract i r g ≠ extractLog env req err := by
  cases err <;> simp [extractLog]

theorem PhaseInv_task (cfg : Config) (reqs : List SegmentRequest) (s s1 : OState)
    (hmain : s1.main = s.main) (hlen : s1.tasks.length = s.tasks.length)
    (hctl : controlOf s1.events = controlOf s.events) (hnot : ¬ allDone s.tasks)
    (h : PhaseInv cfg reqs s) : PhaseInv cfg reqs s1 := by
  unfold PhaseInv at *
  rw [hmain]
  split <;> simp_all

theorem progressOf_nil : progressOf [] = [] := rfl

theorem progressOf_cons (e : Event) (l : List Event) :
    progressOf (e :: l) = (match e.pct with
      | some p => p :: progressOf l
      | none => progressOf l) := by
  unfold progressOf
  rw [List.filterMap_cons]
  cases e.pct <;> rfl

theorem succeeded_nil : succeeded [] = false := rfl

theorem succeeded_cons (e : Event) (l : List Event) :
    succeeded (e :: l) = (e.isSuccess || succeeded l) := rfl

theorem controlOf_nil : controlOf [] = [] := rfl

theorem controlOf_cons (e : Event) (l : List Event) :
    controlOf (e :: l) = if e.isControl then e :: controlOf l else controlOf l := by
  unfold controlOf
  rw [List.filter_cons]

theorem RunInv_step (cfg : Config) (env : Env) (reqs : List SegmentRequest) (s : OState)
    (a : Action) (s1 : OState) (hs : RunInv cfg reqs s) (h : step cfg env reqs s a = some s1) :
    RunInv cfg reqs s1 := by
  obtain ⟨hdc, hlen, hprog, hsucc, hext, hphase⟩ := hs
  cases a with
  | stop =>
    simp only [step] at h
    injection h with h; subst h
    exact ⟨hdc, hlen, hprog, hsucc, hext, hphase⟩
  | main =>
    simp only [step] at h
    unfold mainStep at h
    split at h
    · rename_i k hk
      have hns : succeeded s.events = false := by
        cases hsv : succeeded s.events with
        | false => rfl
        | true => have := (hsucc hsv).2; rw [hk] at this; cases this
      simp only [PhaseInv, hk] at hphase
      split at h
      · rename_i req hreq
        have hklt : k < reqs.length := (List.getElem?_eq_some.mp hreq).1
        split at h
        · injection h with h; subst h
          refine ⟨hdc, hlen, ?_, ?_, ?_, ?_⟩
          · simp [progressOf_append, succeeded_append, hprog, hns, progressOf_cons, progressOf_nil,
              Event.pct, succeeded_cons, succeeded_nil, Event.isSuccess]
          · simp [succeeded_append, hns, succeeded_cons, succeeded_nil, Event.isSuccess]
          · intro i r g hm
            simp only [List.mem_append, List.mem_singleton] at hm
            rcases hm with hm | hm
            · exact hext i r g hm
            · cases hm
          · simp [PhaseInv]
        · injection h with h; subst h
          refine ⟨?_, ?_, ?_, ?_, ?_, ?_⟩
          · simp [List.countP_append, TaskPc.counted, hdc]
          · simp only [List.length_append, List.length_singleton]; omega
          · simp [progressOf_append, succeeded_append, hprog, hns, progressOf_cons, progressOf_nil,
              Event.pct, succeeded_cons, succeeded_nil, Event.isSuccess]
          · simp [succeeded_append, hns, succeeded_cons, succeeded_nil, Event.isSuccess]
          · intro i r g hm
            simp only [List.mem_append, List.mem_singleton] at hm
            simp only [List.length_append, List.length_singleton]
            rcases hm with hm | hm
            · exact Nat.lt_succ_of_lt (hext i r g hm)
            · cases hm
          · simp only [PhaseInv, List.length_append, List.length_singleton, hphase.1, true_and]
            rw [controlOf_append, hphase.2, submitsUpTo_succ reqs k req hreq]
            rfl
      · injection h with h; subst h
        refine ⟨hdc, hlen, hprog, ?_, hext, ?_⟩
        · intro hsv; rw [hns] at hsv; cases hsv
        · simp only [PhaseInv]
          rw [hphase.1]; exact hphase.2
    · rename_i hk
      have hns : succeeded s.events = false := by
        cases hsv : succeeded s.events with
        | false => rfl
        | true => have := (hsucc hsv).2; rw [hk] at this; cases this
      simp only [PhaseInv, hk] at hphase
      split at h
      · rename_i hall
        have hall' : allDone s.tasks := by
          intro t ht
          have := List.all_eq_true.mp hall t ht
          simpa using this
        simp only at h
        split at h
        · injection h with h; subst h
          refine ⟨hdc, hlen, ?_, ?_, ?_, ?_⟩
          · simp [progressOf_append, succeeded_append, hprog, hns, progressOf_cons, progressOf_nil,
              Event.pct, succeeded_cons, succeeded_nil, Event.isSuccess]
          · simp [succeeded_append, hns, succeeded_cons, succeeded_nil, Event.isSuccess]
          · intro i r g hm
            simp only [List.mem_append, List.mem_singleton] at hm
            rcases hm with hm | hm
            · exact hext i r g hm
            · cases hm
          · simp [PhaseInv]
        · rename_i hne
          injection h with h; subst h
          refine ⟨hdc, hlen, ?_, ?_, ?_, ?_⟩
          · simp [progressOf_append, succeeded_append, hprog, hns, progressOf_cons, progressOf_nil,
              Event.pct, succeeded_cons, succeeded_nil, Event.isSuccess]
          · simp [succeeded_append, hns, succeeded_cons, succeeded_nil, Event.isSuccess]
          · intro i r g hm
            simp only [List.mem_append, List.mem_cons, List.mem_singleton, List.mem_nil_iff,
              or_false] at hm
            rcases hm with hm | hm | hm
            · exact hext i r g hm
            · cases hm
            · cases hm
          · simp only [PhaseInv]
            refine ⟨hall', ?_, ?_⟩
            · intro he; apply hne; rw [he]; rfl
            · rw [controlOf_append, hphase]
              rfl
      · cases h
    · cases h
    · cases h
  | acquire i =>
    simp only [step] at h
    split at h
    · rename_i req ht hr
      have hnd := not_allDone_of_getElem? s.tasks i .queued ht (by simp)
      have hns : succeeded s.events = false := by
        cases hsv : succeeded s.events with
        | false => rfl
        | true => exact absurd (hsucc hsv).1 hnd
      split at h
      · injection h with h; subst h
        have c1 := countP_set_getElem? TaskPc.counted s.tasks i .queued .inflight ht
        simp only [TaskPc.counted, Bool.toNat_false] at c1
        refine ⟨?_, ?_, ?_, ?_, ?_, ?_⟩
        · simp only; omega
        · simpa using hlen
        · simp [progressOf_append, succeeded_append, hprog, hns, progressOf_cons, progressOf_nil,
            Event.pct, succeeded_cons, succeeded_nil, Event.isSuccess]
        · simp [succeeded_append, hns, succeeded_cons, succeeded_nil, Event.isSuccess]
        · intro j r g hm
          simp only [List.mem_append, List.mem_singleton, List.length_set] at hm ⊢
          rcases hm with hm | hm
          · exact hext j r g hm
          · injection hm with hj _ _
            rw [hj]; exact (List.getElem?_eq_some.mp ht).1
        · exact PhaseInv_task cfg reqs s _ rfl (by simp) (by simp [controlOf_append, controlOf_cons, controlOf_nil, Event.isControl]) hnd hphase
      · cases h
    · cases h
  | extractReturn i w =>
    simp only [step] at h
    split at h
    · rename_i req ht hr
      have hnd := not_allDone_of_getElem? s.tasks i .inflight ht (by simp)
      have hns : succeeded s.events = false := by
        cases hsv : succeeded s.events with
        | false => rfl
        | true => exact absurd (hsucc hsv).1 hnd
      injection h with h; subst h
      have c1 := countP_set_getElem? TaskPc.counted s.tasks i .inflight (.returned (RunFFmpegExtract w).2) ht
      simp only [TaskPc.counted, Bool.toNat_false] at c1
      refine ⟨?_, ?_, hprog, ?_, ?_, ?_⟩
      · simp only; omega
      · simpa using hlen
      · intro hsv; rw [hns] at hsv; cases hsv
      · intro j r g hm
        simp only [List.length_set]
        exact hext j r g hm
      · exact PhaseInv_task cfg reqs s _ rfl (by simp) rfl hnd hphase
    · cases h
  | report i =>
    simp only [step] at h
    split at h
    · rename_i err req ht hr
      have hnd := not_allDone_of_getElem? s.tasks i (.returned err) ht (by simp)
      have hns : succeeded s.events = false := by
        cases hsv : succeeded s.events with
        | false => rfl
        | true => exact absurd (hsucc hsv).1 hnd
      injection h with h; subst h
      have c1 := countP_set_getElem? TaskPc.counted s.tasks i (.returned err) .reported ht
      simp only [TaskPc.counted, Bool.toNat_false, Bool.toNat_true] at c1
      refine ⟨?_, ?_, ?_, ?_, ?_, ?_⟩
      · simp only; omega
      · simpa using hlen
      · cases err <;>
          simp [progressOf_append, succeeded_append, hprog, hns, progressOf_cons, progressOf_nil,
            Event.pct, succeeded_cons, succeeded_nil, Event.isSuccess, extractLog,
            List.range_succ]
      · cases err <;>
          simp [succeeded_append, hns, succeeded_cons, succeeded_nil, Event.isSuccess, extractLog]
      · intro j r g hm
        simp only [List.mem_append, List.mem_cons, List.mem_singleton, List.mem_nil_iff,
          or_false, List.length_set] at hm ⊢
        rcases hm with hm | hm | hm
        · exact hext j r g hm
        · cases hm
        · exact absurd hm (extractLog_ne_extract env req err j r g)
      · exact PhaseInv_task cfg reqs s _ rfl (by simp)
          (by cases err <;> simp [controlOf_append, controlOf_cons, controlOf_nil,
            Event.isControl, extractLog]) hnd hphase
    · cases h
  | release i =>
    simp only [step] at h
    split at h
    · rename_i ht
      have hnd := not_allDone_of_getElem? s.tasks i .reported ht (by simp)
      have hns : succeeded s.events = false := by
        cases hsv : succeeded s.events with
        | false => rfl
        | true => exact absurd (hsucc hsv).1 hnd
      injection h with h; subst h
      have c1 := countP_set_getElem? TaskPc.counted s.tasks i .reported .done ht
      simp only [TaskPc.counted, Bool.toNat_true] at c1
      refine ⟨?_, ?_, hprog, ?_, ?_, ?_⟩
      · simp only; omega
      · simpa using hlen
      · intro hsv; rw [hns] at hsv; cases hsv
      · intro j r g hm
        simp only [List.length_set]
        exact hext j r g hm
      · exact PhaseInv_task cfg reqs s _ rfl (by simp) rfl hnd hphase
    · cases h
  | concatReturn w =>
    simp only [step] at h
    split at h
    · rename_i existing hk
      have hns : succeeded s.events = false := by
        cases hsv : succeeded s.events with
        | false => rfl
        | true => have := (hsucc hsv).2; rw [hk] at this; cases this
      simp only [PhaseInv, hk] at hphase
      split at h
      · injection h with h; subst h
        refine ⟨hdc, hlen, ?_, ?_, ?_, ?_⟩
        · simp [progressOf_append, succeeded_append, hprog, hns, progressOf_cons, progressOf_nil,
            Event.pct, succeeded_cons, succeeded_nil, Event.isSuccess]
        · simp [succeeded_append, hns, succeeded_cons, succeeded_nil, Event.isSuccess]
        · intro i r g hm
          simp only [List.mem_append, List.mem_singleton] at hm
          rcases hm with hm | hm
          · exact hext i r g hm
          · cases hm
        · simp [PhaseInv]
      · injection h with h; subst h
        refine ⟨hdc, hlen, ?_, ?_, ?_, ?_⟩
        · rw [progressOf_append, progressOf_append, progressOf_removes, hprog, hns]
          simp [succeeded_append, progressOf_cons, progressOf_nil, Event.pct, succeeded_cons,
            succeeded_nil, Event.isSuccess]
        · intro _; exact ⟨hphase.1, rfl⟩
        · intro i r g hm
          simp only [List.mem_append, List.mem_cons, List.mem_singleton, List.mem_nil_iff,
            or_false] at hm
          rcases hm with (hm | hm | hm) | hm
          · exact hext i r g hm
          · cases hm
          · cases hm
          · exact absurd hm (extract_not_mem_removes _ _ _ _)
        · simp [PhaseInv]
    · cases h

theorem percent_eq (d t : Nat) : percent d t = ((d * 80 / t : Nat) : Int) := by
  unfold percent truncToInt
  have hnn : (0 : ℚ) ≤ (d : ℚ) / (t : ℚ) * 80 := by positivity
  rw [if_pos hnn]
  have : (d : ℚ) / (t : ℚ) * 80 = ((d * 80 : Nat) : ℚ) / ((t : Nat) : ℚ) := by
    push_cast; ring
  rw [this, Rat.floor_natCast_div_natCast]
  rfl

theorem percent_floor (d t : Nat) : percent d t = ⌊(d : ℚ) / (t : ℚ) * 80⌋ := by
  unfold percent truncToInt
  have hnn : (0 : ℚ) ≤ (d : ℚ) / (t : ℚ) * 80 := by positivity
  rw [if_pos hnn]

theorem percent_bounds (d t : Nat) (hd : d ≤ t) : 0 ≤ percent d t ∧ percent d t ≤ 80 := by
  rw [percent_eq]
  refine ⟨Int.ofNat_nonneg _, ?_⟩
  have : d * 80 / t ≤ 80 := by
    rcases Nat.eq_zero_or_pos t with h0 | hpos
    · subst h0; simp
    · apply Nat.div_le_of_le_mul
      nlinarith
  exact_mod_cast this

theorem percent_mono (d d1 t : Nat) (h : d ≤ d1) : percent d t ≤ percent d1 t := by
  rw [percent_eq, percent_eq]
  have : d * 80 / t ≤ d1 * 80 / t := Nat.div_le_div_right (Nat.mul_le_mul_right 80 h)
  exact_mod_cast this

theorem AllLogs_progressOf (events : List Event) (h : AllLogs events) : progressOf events = [] := by
  induction events with
  | nil => rfl
  | cons e rest ih =>
    obtain ⟨m, rfl⟩ := h e (List.mem_cons_self _ _)
    rw [progressOf_cons]
    exact ih (fun e he => h e (List.mem_cons_of_mem _ he))

theorem AllLogs_succeeded (events : List Event) (h : AllLogs events) : succeeded events = false := by
  induction events with
  | nil => rfl
  | cons e rest ih =>
    obtain ⟨m, rfl⟩ := h e (List.mem_cons_self _ _)
    rw [succeeded_cons]
    simp only [Event.isSuccess, Bool.false_or]
    exact ih (fun e he => h e (List.mem_cons_of_mem _ he))

theorem AllLogs_controlOf (events : List Event) (h : AllLogs events) : controlOf events = [] := by
  induction events with
  | nil => rfl
  | cons e rest ih =>
    obtain ⟨m, rfl⟩ := h e (List.mem_cons_self _ _)
    rw [controlOf_cons]
    simp only [Event.isControl, Bool.false_eq_true, if_false]
    exact ih (fun e he => h e (List.mem_cons_of_mem _ he))

theorem RunInv_init (cfg : Config) (reqs : List SegmentRequest) (events : List Event)
    (cancelled : Bool) (disk : List String) (h : AllLogs events) :
    RunInv cfg reqs (dispatchState events cancelled disk) := by
  refine ⟨rfl, Nat.zero_le _, ?_, ?_, ?_, ?_⟩
  · simp [dispatchState, AllLogs_progressOf events h, AllLogs_succeeded events h]
  · intro hs
    simp only [dispatchState, AllLogs_succeeded events h] at hs
    cases hs
  · intro i r g hm
    obtain ⟨m, hm2⟩ := h _ hm
    cases hm2
  · simp only [PhaseInv, dispatchState, List.length_nil, true_and]
    rw [AllLogs_controlOf events h]
    rfl

theorem SlotInv_init (events : List Event) (cancelled : Bool) (disk : List String) :
    SlotInv (dispatchState events cancelled disk) := by
  simp [SlotInv, dispatchState, holders]

theorem reach_inv (cfg : Config) (env : Env) (reqs : List SegmentRequest) (events : List Event)
    (cancelled : Bool) (disk : List String) (acts : List Action) (s : OState)
    (hlog : AllLogs events)
    (h : exec cfg env reqs (dispatchState events cancelled disk) acts = some s) :
    RunInv cfg reqs s ∧ SlotInv s :=
  ⟨exec_inv cfg env reqs (RunInv cfg reqs) (RunInv_step cfg env reqs) acts _ s
      (RunInv_init cfg reqs events cancelled disk hlog) h,
    exec_inv cfg env reqs SlotInv (SlotInv_step cfg env reqs) acts _ s
      (SlotInv_init events cancelled disk) h⟩

theorem mem_submitsUpTo (reqs : List SegmentRequest) (k : Nat) (e : Event)
    (h : e ∈ submitsUpTo reqs k) : ∃ i r, i < k ∧ reqs[i]? = some r ∧ e = Event.submit i r := by
  unfold submitsUpTo at h
  rw [List.mem_filterMap] at h
  obtain ⟨i, hi, hm⟩ := h
  rw [List.mem_range] at hi
  cases hr : reqs[i]? with
  | none => rw [hr] at hm; cases hm
  | some r =>
    rw [hr] at hm
    simp only [Option.map_some'] at hm
    injection hm with hm
    exact ⟨i, r, hi, hr, hm.symm⟩

theorem mem_controlOf (events : List Event) (e : Event) (he : e ∈ events)
    (hc : e.isControl = true) : e ∈ controlOf events :=
  List.mem_filter.mpr ⟨he, hc⟩

/-- Once `run` has returned, only the goroutines move: the control events and the
number of goroutines stay as they are. -/
theorem exited_step (cfg : Config) (env : Env) (reqs : List SegmentRequest) (s : OState)
    (a : Action) (s1 : OState) (hm : s.main = .exited)
    (h : step cfg env reqs s a = some s1) :
    s1.main = .exited ∧ s1.tasks.length = s.tasks.length ∧
      controlOf s1.events = controlOf s.events := by
  cases a with
  | stop =>
    simp only [step] at h
    injection h with h; subst h
    exact ⟨hm, rfl, rfl⟩
  | main =>
    simp only [step, mainStep, hm] at h
    cases h
  | acquire i =>
    simp only [step] at h
    split at h
    · split at h
      · injection h with h; subst h
        exact ⟨hm, by simp, by simp [controlOf_append, controlOf_cons, controlOf_nil,
          Event.isControl]⟩
      · cases h
    · cases h
  | extractReturn i w =>
    simp only [step] at h
    split at h
    · injection h with h; subst h
      exact ⟨hm, by simp, rfl⟩
    · cases h
  | report i =>
    simp only [step] at h
    split at h
    · rename_i err req ht hr
      injection h with h; subst h
      exact ⟨hm, by simp, by cases err <;> simp [controlOf_append, controlOf_cons, controlOf_nil,
        Event.isControl, extractLog]⟩
    · cases h
  | release i =>
    simp only [step] at h
    split at h
    · injection h with h; subst h
      exact ⟨hm, by simp, rfl⟩
    · cases h
  | concatReturn w =>
    simp only [step, hm] at h
    cases h

theorem exited_exec (cfg : Config) (env : Env) (reqs : List SegmentRequest) :
    ∀ (acts : List Action) (s s1 : OState), s.main = .exited →
      exec cfg env reqs s acts = some s1 →
      s1.main = .exited ∧ s1.tasks.length = s.tasks.length ∧
        controlOf s1.events = controlOf s.events := by
  intro acts
  induction acts with
  | nil =>
    intro s s1 hm h
    simp only [exec] at h
    injection h with h; subst h
    exact ⟨hm, rfl, rfl⟩
  | cons a rest ih =>
    intro s s1 hm h
    simp only [exec] at h
    split at h
    · rename_i s2 h2
      obtain ⟨e1, e2, e3⟩ := exited_step cfg env reqs s a s2 hm h2
      obtain ⟨f1, f2, f3⟩ := ih s2 s1 e1 h
      exact ⟨f1, f2.trans e2, f3.trans e3⟩
    · cases h

theorem exec_append (cfg : Config) (env : Env) (reqs : List SegmentRequest) :
    ∀ (a1 a2 : List Action) (s s1 s2 : OState), exec cfg env reqs s a1 = some s1 →
      exec cfg env reqs s1 a2 = some s2 → exec cfg env reqs s (a1 ++ a2) = some s2 := by
  intro a1
  induction a1 with
  | nil =>
    intro a2 s s1 s2 h1 h2
    simp only [exec] at h1
    injection h1 with h1; subst h1
    exact h2
  | cons a rest ih =>
    intro a2 s s1 s2 h1 h2
    simp only [exec] at h1
    split at h1
    · rename_i s3 h3
      simp only [List.cons_append, exec, h3]
      exact ih a2 s3 s1 s2 h1 h2
    · cases h1

theorem sum_stepsLeft_set (l : List TaskPc) (i : Nat) (a b : TaskPc) (h : l[i]? = some a) :
    ((l.set i b).map TaskPc.stepsLeft).sum + a.stepsLeft =
      (l.map TaskPc.stepsLeft).sum + b.stepsLeft := by
  induction l generalizing i with
  | nil => simp at h
  | cons x rest ih =>
    cases i with
    | zero =>
      simp only [List.getElem?_cons_zero, Option.some.injEq] at h
      subst h
      simp only [List.set_cons_zero, List.map_cons, List.sum_cons]
      omega
    | succ i =>
      simp only [List.getElem?_cons_succ] at h
      have := ih i h
      simp only [List.set_cons_succ, List.map_cons, List.sum_cons]
      omega

/-- A goroutine that is not finished can always be scheduled again, possibly
after the goroutines holding a slot have moved on: from every state that
respects the slot discipline some schedule of goroutine transitions alone
brings every started goroutine to its end. -/
theorem can_drain (cfg : Config) (env : Env) (reqs : List SegmentRequest) :
    ∀ (n : Nat) (s : OState), workLeft s ≤ n → SlotInv s → s.tasks.length ≤ reqs.length →
      ∃ acts s1, exec cfg env reqs s acts = some s1 ∧ allDone s1.tasks ∧
        s1.tasks.length = s.tasks.length := by
  intro n
  induction n with
  | zero =>
    intro s hw _ _
    refine ⟨[], s, rfl, ?_, rfl⟩
    intro t ht
    have hz : (s.tasks.map TaskPc.stepsLeft).sum = 0 := Nat.le_zero.mp hw
    have := List.sum_eq_zero_iff.mp hz t.stepsLeft (List.mem_map_of_mem _ ht)
    cases t <;> simp [TaskPc.stepsLeft] at this ⊢
  | succ n ih =>
    intro s hw hslot hlen
    by_cases hall : allDone s.tasks
    · exact ⟨[], s, rfl, hall, rfl⟩
    · have next : ∀ (a : Action) (s2 : OState), step cfg env reqs s a = some s2 →
          workLeft s2 < workLeft s → s2.tasks.length = s.tasks.length →
          ∃ acts s1, exec cfg env reqs s acts = some s1 ∧ allDone s1.tasks ∧
            s1.tasks.length = s.tasks.length := by
        intro a s2 hstep hlt hl
        obtain ⟨acts, s1, h1, h2, h3⟩ := ih s2 (by omega)
          (SlotInv_step cfg env reqs s a s2 hslot hstep) (by omega)
        exact ⟨a :: acts, s1, by simp only [exec, hstep, h1], h2, h3.trans hl⟩
      by_cases hhold : ∃ t ∈ s.tasks, t.holding = true
      · obtain ⟨t, ht, hth⟩ := hhold
        obtain ⟨i, hi⟩ := List.getElem?_of_mem ht
        cases t with
        | queued => simp [TaskPc.holding] at hth
        | done => simp [TaskPc.holding] at hth
        | inflight =>
          have hr : ∃ req, reqs[i]? = some req := by
            have : i < reqs.length := lt_of_lt_of_le (List.getElem?_eq_some.mp hi).1 hlen
            exact ⟨reqs[i], List.getElem?_eq_getElem this⟩
          obtain ⟨req, hr⟩ := hr
          have hsum := sum_stepsLeft_set s.tasks i .inflight
            (.returned (RunFFmpegExtract extractOk).2) hi
          refine next (.extractReturn i extractOk) _ (by simp only [step, hi, hr]; rfl) ?_ ?_
          · simp only [workLeft, TaskPc.stepsLeft] at hsum ⊢
            omega
          · simp
        | returned err =>
          have hr : ∃ req, reqs[i]? = some req := by
            have : i < reqs.length := lt_of_lt_of_le (List.getElem?_eq_some.mp hi).1 hlen
            exact ⟨reqs[i], List.getElem?_eq_getElem this⟩
          obtain ⟨req, hr⟩ := hr
          have hsum := sum_stepsLeft_set s.tasks i (.returned err) .reported hi
          refine next (.report i) _ (by simp only [step, hi, hr]; rfl) ?_ ?_
          · simp only [workLeft, TaskPc.stepsLeft] at hsum ⊢
            omega
          · simp
        | reported =>
          have hsum := sum_stepsLeft_set s.tasks i .reported .done hi
          refine next (.release i) _ (by simp only [step, hi]; rfl) ?_ ?_
          · simp only [workLeft, TaskPc.stepsLeft] at hsum ⊢
            omega
          · simp
      · have hzero : holders s = 0 := by
          unfold holders
          rw [List.countP_eq_zero]
          intro t ht hth
          exact hhold ⟨t, ht, hth⟩
        have hex : ∃ t ∈ s.tasks, t ≠ .done := by
          by_contra hne
          apply hall
          intro t ht
          by_contra htd
          exact hne ⟨t, ht, htd⟩
        obtain ⟨t, ht, htd⟩ := hex
        obtain ⟨i, hi⟩ := List.getElem?_of_mem ht
        have htq : t = .queued := by
          cases t with
          | queued => rfl
          | done => exact absurd rfl htd
          | inflight => exact absurd ⟨_, ht, rfl⟩ hhold
          | returned err => exact absurd ⟨_, ht, rfl⟩ hhold
          | reported => exact absurd ⟨_, ht, rfl⟩ hhold
        subst htq
        have hr : ∃ req, reqs[i]? = some req := by
          have : i < reqs.length := lt_of_lt_of_le (List.getElem?_eq_some.mp hi).1 hlen
          exact ⟨reqs[i], List.getElem?_eq_getElem this⟩
        obtain ⟨req, hr⟩ := hr
        have hlim : s.limit < 4 := by
          have := hslot.1
          omega
        have hsum := sum_stepsLeft_set s.tasks i .queued .inflight hi
        refine next (.acquire i) _ (by simp only [step, hi, hr, hlim, if_true]; rfl) ?_ ?_
        · simp only [workLeft, TaskPc.stepsLeft] at hsum ⊢
          omega
        · simp

theorem AllLogs_append_log (events : List Event) (m : String) (h : AllLogs events) :
    AllLogs (events ++ [.log m]) := by
  intro e he
  rcases List.mem_append.mp he with he | he
  · exact h e he
  · exact ⟨m, List.mem_singleton.mp he⟩

theorem planFile_logs (cfg : Config) (env : Env) (st st1 : PlanState) (file : String)
    (hl : AllLogs st.events) (h : planFile cfg env st file = .ok st1) : AllLogs st1.events := by
  unfold planFile at h
  split at h
  · injection h with h; subst h
    exact AllLogs_append_log _ _ hl
  · split at h
    · injection h with h; subst h
      exact AllLogs_append_log _ _ hl
    · split at h
      · cases h
      · simp only at h
        split at h
        · injection h with h; subst h; exact hl
        · injection h with h; subst h; exact hl

theorem planLoop_logs (cfg : Config) (env : Env) :
    ∀ (files : List String) (st st1 : PlanState), AllLogs st.events →
      planLoop cfg env files st = .ok st1 → AllLogs st1.events := by
  intro files
  induction files with
  | nil =>
    intro st st1 hl h
    simp only [planLoop] at h
    injection h with h; subst h; exact hl
  | cons file rest ih =>
    intro st st1 hl h
    simp only [planLoop] at h
    split at h
    · cases h
    · rename_i st2 h2
      exact ih st2 st1 (planFile_logs cfg env st st2 file hl h2) h

/-- The run enters the dispatch loop in a state `dispatchState events ..` whose
trace holds the log lines of planning only; otherwise it has already returned. -/
theorem start_dispatch (cfg : Config) (env : Env) (r : Rng) (cancelled : Bool)
    (disk : List String) :
    (start cfg env r cancelled disk).2.main = .exited ∨
      ∃ events, AllLogs events ∧
        (start cfg env r cancelled disk).2 = dispatchState events cancelled disk := by
  unfold start
  split
  · exact Or.inl rfl
  · rename_i st hst
    split
    · exact Or.inl rfl
    · refine Or.inr ⟨st.events, ?_, rfl⟩
      refine planLoop_logs cfg env cfg.Files _ st ?_ hst
      intro e he
      exact ⟨_, List.mem_singleton.mp he⟩

/-! ## The orchestrator: claims -/

/-- C9: in every reachable state at most 4 transcoder calls are in flight. -/
theorem at_most_four_in_flight (cfg : Config) (env : Env) (reqs : List SegmentRequest)
    (events : List Event) (cancelled : Bool) (disk : List String) (acts : List Action)
    (s : OState)
    (h : exec cfg env reqs (dispatchState events cancelled disk) acts = some s) :
    inFlight s ≤ 4 ∧ inFlight s ≤ holders s ∧ holders s = s.limit ∧ s.limit ≤ 4 ∧
    (∀ i, s.limit = 4 → step cfg env reqs s (.acquire i) = none) ∧
    (∀ i s1, step cfg env reqs s (.acquire i) = some s1 →
      s.tasks[i]? = some .queued ∧ s1.tasks[i]? = some .inflight ∧ s1.limit = s.limit + 1) ∧
    (∀ i s1, step cfg env reqs s (.release i) = some s1 →
      s.tasks[i]? = some .reported ∧ s1.limit + 1 = s.limit) := by
  have hslot : SlotInv s :=
    exec_inv cfg env reqs SlotInv (SlotInv_step cfg env reqs) acts _ s
      (SlotInv_init events cancelled disk) h
  have hle := inFlight_le_holders s
  obtain ⟨h1, h2⟩ := hslot
  refine ⟨by omega, hle, h1, h2, ?_, ?_, ?_⟩
  · intro i hfull
    simp only [step]
    split
    · rw [if_neg (by omega)]
    · rfl
  · intro i s1 hs
    simp only [step] at hs
    split at hs
    · rename_i req ht hr
      split at hs
      · injection hs with hs; subst hs
        refine ⟨ht, ?_, rfl⟩
        simp only [List.getElem?_set_self, (List.getElem?_eq_some.mp ht).1]
      · cases hs
    · cases hs
  · intro i s1 hs
    simp only [step] at hs
    split at hs
    · rename_i ht
      injection hs with hs; subst hs
      refine ⟨ht, ?_⟩
      have c1 := countP_set_getElem? TaskPc.holding s.tasks i .reported .done ht
      simp only [TaskPc.holding, Bool.toNat_true] at c1
      simp only [holders] at h1
      simp only
      omega
    · cases hs

/-- With five requests dispatched and four transcoder calls under way, the fifth
goroutine cannot get a slot. -/
theorem at_most_four_in_flight_witness :
    ∃ s, exec cfgSeq (sampleEnv 600) sampleReqs (dispatchState [] false []) schedFourInFlight
        = some s ∧
      inFlight s = 4 ∧ inFlight s ≤ 4 ∧
      step cfgSeq (sampleEnv 600) sampleReqs s (.acquire 4) = none := by
  refine ⟨_, rfl, rfl, ?_, rfl⟩
  exact (at_most_four_in_flight cfgSeq (sampleEnv 600) sampleReqs [] false []
    schedFourInFlight _ rfl).1

/-- C6: the `d`-th report of the extraction phase is `floor(d / total * 80)`, between
0 and 80 and non-decreasing in `d`; no report exceeds 80 before the concatenator has
returned success, and after it has the last report is 100. -/
theorem progress_stays_within_eighty (cfg : Config) (env : Env) (reqs : List SegmentRequest)
    (events : List Event) (cancelled : Bool) (disk : List String) (acts : List Action)
    (s : OState) (hlog : AllLogs events)
    (h : exec cfg env reqs (dispatchState events cancelled disk) acts = some s) :
    (∀ t d : Nat, 1 ≤ t → 1 ≤ d → d ≤ t →
      percent d t = ⌊(d : ℚ) / (t : ℚ) * 80⌋ ∧ 0 ≤ percent d t ∧ percent d t ≤ 80 ∧
      ∀ d1 : Nat, d ≤ d1 → d1 ≤ t → percent d t ≤ percent d1 t) ∧
    s.doneCount ≤ reqs.length ∧
    progressOf s.events =
      (List.range s.doneCount).map (fun j => percent (j + 1) reqs.length) ++
        (if succeeded s.events then [100] else []) ∧
    (succeeded s.events = false → ∀ p ∈ progressOf s.events, 0 ≤ p ∧ p ≤ 80) ∧
    (succeeded s.events = true → (progressOf s.events).getLast? = some 100) ∧
    (∀ w s1, step cfg env reqs s (.concatReturn w) = some s1 →
      succeeded s.events = false ∧
        (succeeded s1.events = true ↔ (ConcatSegments w).2 = none)) := by
  obtain ⟨⟨hdc, hlen, hprog, hsucc, _, _⟩, _⟩ :=
    reach_inv cfg env reqs events cancelled disk acts s hlog h
  have hdone : s.doneCount ≤ reqs.length := by
    rw [hdc]
    exact le_trans (List.countP_le_length _) hlen
  refine ⟨?_, hdone, hprog, ?_, ?_, ?_⟩
  · intro t d _ _ hdt
    exact ⟨percent_floor d t, (percent_bounds d t hdt).1, (percent_bounds d t hdt).2,
      fun d1 hd1 _ => percent_mono d d1 t hd1⟩
  · intro hns p hp
    rw [hprog, hns] at hp
    simp only [Bool.false_eq_true, if_false, List.append_nil, List.mem_map, List.mem_range] at hp
    obtain ⟨j, hj, rfl⟩ := hp
    exact percent_bounds (j + 1) reqs.length (by omega)
  · intro hs
    rw [hprog, hs]
    simp
  · intro w s1 hstep
    simp only [step] at hstep
    split at hstep
    · rename_i existing hk
      have hns : succeeded s.events = false := by
        cases hsv : succeeded s.events with
        | false => rfl
        | true => have := (hsucc hsv).2; rw [hk] at this; cases this
      refine ⟨hns, ?_⟩
      split at hstep
      · rename_i e he
        injection hstep with hstep; subst hstep
        simp [succeeded_append, hns, succeeded_cons, succeeded_nil, Event.isSuccess, he]
      · rename_i he
        injection hstep with hstep; subst hstep
        simp [succeeded_append, hns, succeeded_cons, succeeded_nil, Event.isSuccess, he]
    · cases hstep

/-- A successful run over two requests reports 40, 80 and then 100. -/
theorem progress_stays_within_eighty_witness :
    ∃ s, exec cfgSeq (sampleEnv 600) sampleReqs2 (dispatchState [] false []) schedTwoOk = some s ∧
      progressOf s.events = [percent 1 2, percent 2 2, 100] ∧
      percent 1 2 = 40 ∧ percent 2 2 = 80 := by
  refine ⟨_, rfl, ?_, by rw [percent_eq]; rfl, by rw [percent_eq]; rfl⟩
  exact (progress_stays_within_eighty cfgSeq (sampleEnv 600) sampleReqs2 [] false []
    schedTwoOk _ (fun e he => by cases he) rfl).2.2.1

theorem no_concat_of_control (events : List Event) (reqs : List SegmentRequest) (k : Nat)
    (extra : List Event) (h : controlOf events = submitsUpTo reqs k ++ extra)
    (hx : ∀ p o g, Event.concat p o g ∉ extra) :
    ∀ p o g, Event.concat p o g ∉ events := by
  intro p o g hm
  have hc := mem_controlOf events _ hm rfl
  rw [h] at hc
  rcases List.mem_append.mp hc with hc | hc
  · obtain ⟨i, r, _, _, he⟩ := mem_submitsUpTo reqs k _ hc
    cases he
  · exact hx p o g hc

/-- C5: once every extraction has ended, the concatenator is called exactly when some
expected output path exists, with the existing paths in the order of the request list;
its success ends the run with `finished(true, OutputPath)`, and when no path exists the
run ends with "Extraction failed for all segments" and the concatenator is never called. -/
theorem concat_runs_on_survivors (cfg : Config) (env : Env) (reqs : List SegmentRequest)
    (events : List Event) (cancelled : Bool) (disk : List String) (acts : List Action)
    (s : OState) (hlog : AllLogs events)
    (h : exec cfg env reqs (dispatchState events cancelled disk) acts = some s)
    (hwait : s.main = .waiting) (hdone : allDone s.tasks) :
    (∀ p o g, Event.concat p o g ∉ s.events) ∧
    (existingPaths reqs s.disk).Sublist (reqs.map (fun q => q.OutPath)) ∧
    (∀ p, p ∈ existingPaths reqs s.disk ↔ p ∈ reqs.map (fun q => q.OutPath) ∧ p ∈ s.disk) ∧
    (existingPaths reqs s.disk ≠ [] →
      ∃ s1, step cfg env reqs s .main = some s1 ∧
        s1.events = s.events ++ [.log "Concatenating segments...",
          .concat (existingPaths reqs s.disk) cfg.OutputPath cfg.GPU] ∧
        ∀ w, (ConcatSegments w).2 = none →
          ∃ s2, step cfg env reqs s1 (.concatReturn w) = some s2 ∧
            s2.events = s1.events ++ [.progress 100, .finished true cfg.OutputPath] ++
              (existingPaths reqs s.disk).map Event.remove) ∧
    (existingPaths reqs s.disk = [] →
      ∃ s1, step cfg env reqs s .main = some s1 ∧
        s1.events = s.events ++ [.finished false "Extraction failed for all segments"] ∧
        ∀ acts2 s2, exec cfg env reqs s1 acts2 = some s2 →
          ∀ p o g, Event.concat p o g ∉ s2.events) := by
  obtain ⟨⟨_, _, _, _, _, hphase⟩, _⟩ :=
    reach_inv cfg env reqs events cancelled disk acts s hlog h
  simp only [PhaseInv, hwait] at hphase
  have hall : (s.tasks.all fun t => decide (t = .done)) = true := by
    rw [List.all_eq_true]
    intro t ht
    simpa using hdone t ht
  refine ⟨?_, ?_, ?_, ?_, ?_⟩
  · exact no_concat_of_control s.events reqs s.tasks.length [] (by rw [List.append_nil]; exact hphase)
      (fun p o g hm => by cases hm)
  · exact List.filter_sublist _
  · intro p
    simp [existingPaths, List.mem_filter]
  · intro hne
    have hlen : ¬ (existingPaths reqs s.disk).length = 0 := by
      intro h0; exact hne (List.length_eq_zero.mp h0)
    refine ⟨_, by simp only [step, mainStep, hwait, hall, if_true, hlen, if_false]; rfl, rfl, ?_⟩
    intro w hw
    exact ⟨_, by simp only [step, hw]; rfl, rfl⟩
  · intro hnil
    have hlen : (existingPaths reqs s.disk).length = 0 := by rw [hnil]; rfl
    refine ⟨_, by simp only [step, mainStep, hwait, hall, if_true, hlen]; rfl, rfl, ?_⟩
    intro acts2 s2 h2
    obtain ⟨_, _, hctl⟩ := exited_exec cfg env reqs acts2 _ s2 rfl h2
    refine no_concat_of_control s2.events reqs s.tasks.length
      [.finished false "Extraction failed for all segments"] ?_ ?_
    · rw [hctl, controlOf_append, hphase]
      rfl
    · intro p o g hm
      simp at hm

/-- Of five extractions three leave no file: the concatenator gets the two survivors in
request order and the run ends with `finished(true, "out.mp4")`. -/
theorem concat_runs_on_survivors_witness :
    exec cfgSeq (sampleEnv 600) sampleReqs (dispatchState [] false []) schedThreeFail
        = some stateThreeFail ∧
      existingPaths sampleReqs stateThreeFail.disk = ["s1", "s3"] ∧
      ∃ s1 s2, step cfgSeq (sampleEnv 600) sampleReqs stateThreeFail .main = some s1 ∧
        s1.events = stateThreeFail.events ++ [.log "Concatenating segments...",
          .concat ["s1", "s3"] "out.mp4" false] ∧
        step cfgSeq (sampleEnv 600) sampleReqs s1 (.concatReturn concatOk) = some s2 ∧
        s2.events = s1.events ++ [.progress 100, .finished true "out.mp4", .remove "s1",
          .remove "s3"] := by
  have hexec : exec cfgSeq (sampleEnv 600) sampleReqs (dispatchState [] false [])
      schedThreeFail = some stateThreeFail := rfl
  have hex : existingPaths sampleReqs stateThreeFail.disk = ["s1", "s3"] := by decide
  obtain ⟨s1, h1, h2, h3⟩ := (concat_runs_on_survivors cfgSeq (sampleEnv 600) sampleReqs [] false
    [] schedThreeFail stateThreeFail (fun e he => by cases he) hexec rfl
    (by unfold allDone; decide)).2.2.2.1 (by rw [hex]; decide)
  obtain ⟨s2, h4, h5⟩ := h3 concatOk rfl
  rw [hex] at h2 h5
  exact ⟨hexec, hex, s1, s2, h1, h2, h4, by rw [h5, List.append_assoc]; rfl⟩

/-- C7 (amended): when the concatenator fails with error `e`, the run ends with
`finished(false, "Concat failed: " ++ e)`; the diagnostic text plays no part. -/
theorem concat_failure_message (cfg : Config) (env : Env) (reqs : List SegmentRequest)
    (s : OState) (existing : List String) (w : ConcatSys) (e : String)
    (hmain : s.main = .concatenating existing) (herr : (ConcatSegments w).2 = some e) :
    ∃ s1, step cfg env reqs s (.concatReturn w) = some s1 ∧ s1.main = .exited ∧
      s1.events = s.events ++ [.finished false ("Concat failed: " ++ e)] ∧
      s1.disk = s.disk ∧
      ∀ w2, (ConcatSegments w2).2 = some e →
        step cfg env reqs s (.concatReturn w2) = some s1 := by
  have hstep : ∀ w2, (ConcatSegments w2).2 = some e →
      step cfg env reqs s (.concatReturn w2) =
        some { s with main := .exited,
                      events := s.events ++ [.finished false ("Concat failed: " ++ e)] } := by
    intro w2 h2
    simp only [step, hmain, h2]
  exact ⟨_, hstep w herr, rfl, rfl, rfl, hstep⟩

/-- A failing ffmpeg run during concatenation ends the run with the error's text. -/
theorem concat_failure_message_witness :
    ∃ s1, step cfgSeq (sampleEnv 600) sampleReqs2 stateConcatenating (.concatReturn concatFail)
        = some s1 ∧
      s1.events = stateConcatenating.events ++
        [.finished false "Concat failed: ffmpeg concat failed: exit status 1"] := by
  obtain ⟨s1, h1, _, h3, _⟩ := concat_failure_message cfgSeq (sampleEnv 600) sampleReqs2
    stateConcatenating ["s0", "s1"] concatFail "ffmpeg concat failed: exit status 1" rfl rfl
  exact ⟨s1, h1, h3⟩

/-- C7 as stated fails: ffmpeg writes a diagnostic to stderr and exits with status 1; the
terminal message is built from the error and no terminal outcome carries the diagnostic. -/
theorem concat_failure_message_counterexample :
    ∃ s, exec cfgSeq (sampleEnv 600) sampleReqs2 (dispatchState [] false []) schedConcatFail
        = some s ∧
      ConcatSegments concatFail =
        ("list.txt: Invalid data found when processing input",
          some "ffmpeg concat failed: exit status 1") ∧
      s.events.getLast? =
        some (.finished false "Concat failed: ffmpeg concat failed: exit status 1") ∧
      Event.finished false (ConcatSegments concatFail).1 ∉ s.events := by
  refine ⟨_, rfl, rfl, rfl, ?_⟩
  decide

/-- C8: when the check before request `k` finds the context cancelled, `run` emits
`finished(false, "Cancelled")` and returns: from then on no request of index `k` or more is
dispatched or handed to the transcoder, the concatenator is never called, no file is
removed, and every goroutine already started can still run to its end. -/
theorem cancel_stops_dispatch (cfg : Config) (env : Env) (reqs : List SegmentRequest)
    (events : List Event) (cancelled : Bool) (disk : List String) (acts : List Action)
    (s : OState) (k : Nat) (hlog : AllLogs events)
    (h : exec cfg env reqs (dispatchState events cancelled disk) acts = some s)
    (hmain : s.main = .dispatch k) (hk : k < reqs.length) (hc : s.cancelled = true) :
    ∃ s1, step cfg env reqs s .main = some s1 ∧
      s1.events = s.events ++ [.finished false "Cancelled"] ∧
      ∀ acts2 s2, exec cfg env reqs s1 acts2 = some s2 →
        s2.main = .exited ∧ s2.tasks.length = k ∧
        controlOf s2.events = submitsUpTo reqs k ++ [.finished false "Cancelled"] ∧
        (∀ i r, Event.submit i r ∈ s2.events → i < k) ∧
        (∀ i r g, Event.extract i r g ∈ s2.events → i < k) ∧
        (∀ p o g, Event.concat p o g ∉ s2.events) ∧
        (∀ p, Event.remove p ∉ s2.events) ∧
        (∀ b m, Event.finished b m ∈ s2.events → b = false ∧ m = "Cancelled") ∧
        ∃ acts3 s3, exec cfg env reqs s2 acts3 = some s3 ∧ allDone s3.tasks ∧
          s3.tasks.length = k := by
  obtain ⟨hinv, hslot⟩ := reach_inv cfg env reqs events cancelled disk acts s hlog h
  have hphase := hinv.2.2.2.2.2
  simp only [PhaseInv, hmain] at hphase
  obtain ⟨req, hreq⟩ : ∃ req, reqs[k]? = some req := ⟨reqs[k], List.getElem?_eq_getElem hk⟩
  have hstep : step cfg env reqs s .main =
      some { s with main := .exited, events := s.events ++ [.finished false "Cancelled"] } := by
    simp only [step, mainStep, hmain, hreq, hc, if_true]
  refine ⟨_, hstep, rfl, ?_⟩
  intro acts2 s2 h2
  have hreach : exec cfg env reqs (dispatchState events cancelled disk)
      (acts ++ (Action.main :: acts2)) = some s2 :=
    exec_append cfg env reqs acts (Action.main :: acts2) _ s s2 h
      (by simp only [exec, hstep, h2])
  obtain ⟨hinv2, hslot2⟩ := reach_inv cfg env reqs events cancelled disk _ s2 hlog hreach
  obtain ⟨e1, e2, e3⟩ := exited_exec cfg env reqs acts2 _ s2 rfl h2
  have hlen2 : s2.tasks.length = k := e2.trans hphase.1
  have hctl : controlOf s2.events = submitsUpTo reqs k ++ [.finished false "Cancelled"] := by
    rw [e3, controlOf_append, hphase.2]
    rfl
  have hmem : ∀ e, e ∈ s2.events → e.isControl = true →
      (∃ i r, i < k ∧ e = Event.submit i r) ∨ e = .finished false "Cancelled" := by
    intro e he hce
    have := mem_controlOf s2.events e he hce
    rw [hctl] at this
    rcases List.mem_append.mp this with hm | hm
    · obtain ⟨i, r, hi, _, hie⟩ := mem_submitsUpTo reqs k e hm
      exact Or.inl ⟨i, r, hi, hie⟩
    · exact Or.inr (List.mem_singleton.mp hm)
  refine ⟨e1, hlen2, hctl, ?_, ?_, ?_, ?_, ?_, ?_⟩
  · intro i r hm
    rcases hmem _ hm rfl with ⟨j, r2, hj, hje⟩ | hf
    · injection hje with h1 _; omega
    · cases hf
  · intro i r g hm
    have := hinv2.2.2.2.2.1 i r g hm
    omega
  · intro p o g hm
    rcases hmem _ hm rfl with ⟨j, r2, _, hje⟩ | hf
    · cases hje
    · cases hf
  · intro p hm
    rcases hmem _ hm rfl with ⟨j, r2, _, hje⟩ | hf
    · cases hje
    · cases hf
  · intro b m hm
    rcases hmem _ hm rfl with ⟨j, r2, _, hje⟩ | hf
    · cases hje
    · injection hf with h1 h2
      exact ⟨h1, h2⟩
  · obtain ⟨acts3, s3, h3, hd3, hl3⟩ := can_drain cfg env reqs (workLeft s2) s2 (le_refl _)
      hslot2 hinv2.2.1
    exact ⟨acts3, s3, h3, hd3, hl3.trans hlen2⟩

/-- `Stop` arrives after three of five requests were dispatched: the run ends with
`finished(false, "Cancelled")` and the three goroutines still run to their end. -/
theorem cancel_stops_dispatch_witness :
    exec cfgSeq (sampleEnv 600) sampleReqs (dispatchState [] false []) schedThenStop
        = some stateStopped ∧
      ∃ s1 s3, step cfgSeq (sampleEnv 600) sampleReqs stateStopped .main = some s1 ∧
        s1.events = stateStopped.events ++ [.finished false "Cancelled"] ∧
        exec cfgSeq (sampleEnv 600) sampleReqs s1 schedAfterStop = some s3 ∧
        s3.main = .exited ∧ s3.tasks = [.done, .done, .done] ∧
        controlOf s3.events =
          [.submit 0 ⟨"a.mp4", 0, 1, "s0"⟩, .submit 1 ⟨"a.mp4", 1, 1, "s1"⟩,
            .submit 2 ⟨"a.mp4", 2, 1, "s2"⟩, .finished false "Cancelled"] := by
  have hexec : exec cfgSeq (sampleEnv 600) sampleReqs (dispatchState [] false [])
      schedThenStop = some stateStopped := rfl
  obtain ⟨s1, h1, h2, h3⟩ := cancel_stops_dispatch cfgSeq (sampleEnv 600) sampleReqs [] false []
    schedThenStop stateStopped 3 (fun e he => by cases he) hexec rfl (by decide) rfl
  have hs1 : s1 = stateCancelled := Option.some.inj (h1.symm.trans rfl)
  subst hs1
  obtain ⟨s3, hs3⟩ : ∃ s3, exec cfgSeq (sampleEnv 600) sampleReqs stateCancelled schedAfterStop
      = some s3 := ⟨_, rfl⟩
  have htasks : s3.tasks = [.done, .done, .done] :=
    congrArg OState.tasks (Option.some.inj (hs3.symm.trans rfl))
  obtain ⟨hm, _, hctl, _⟩ := h3 schedAfterStop s3 hs3
  exact ⟨hexec, stateCancelled, s3, h1, h2, hs3, hm, htasks, hctl.trans rfl⟩

end VideoCut
